import Mathlib

/-!
Verification of the rust-less two-stage LESS parser.

This file shallowly embeds the lexers and parsers of the repository in Lean:

* the character predicates of src/lexer/helpers.rs;
* the chumsky token-tree lexer of src/lexer/mod.rs (`lexer`, `token_tree`,
  `tree`, `token`, ...), including spans;
* the winnow token-tree lexer of src/tokenizer.rs (`tokenize`, `token_tree`,
  `delim`, `token`, ...);
* the `!important` post-pass of the chumsky token-tree parser in
  src/parser/mod.rs (`strip_trailing_junk` and the value/important split of
  `declaration`);
* the nom text-level expression and mixin-argument parsers of
  src/parser/expression.rs, src/parser/mixin.rs, src/parser/string.rs,
  src/parser/selector.rs and src/lexer/junk.rs.

Inputs are `List Char`.  Machine integers are modelled with `Nat`/`Int` with
explicit wrapping where the Rust code casts (`as i32`).  Rust `f32` values are
modelled symbolically by the `F32` structure recording exactly the components
the source feeds to the float expression
`s as f32 * (i as f32 + f as f32 * 10f32.powi(-(d as i32))) * 10f32.powi(t * e as i32)`;
IEEE rounding (and the unspecified precision of `powi`) is not modelled, so
`F32` equality is component equality.

Parser outcomes are modelled by `PR`: `ok` with the remaining input,
`fail` (a recoverable error: a chumsky error, a winnow `Backtrack`, a nom
`Err::Error`), `cut` (winnow `cut_err`, nom `Err::Failure`), `panicked`
(a Rust panic, reachable via `digits.parse::<u32>().unwrap()` on overflow),
and `stuck` (a repetition whose body succeeds without consuming input, which
makes the real combinator libraries loop or abort; also used for fuel
exhaustion in the fuel-indexed nom layer, where it never occurs in any
theorem below).
-/

namespace RustLess

/-- Rust `char::is_whitespace`: the Unicode White_Space property. -/
def rustIsWhitespace (c : Char) : Bool :=
  let n := c.toNat
  (0x9 ≤ n && n ≤ 0xD) || n = 0x20 || n = 0x85 || n = 0xA0 || n = 0x1680 ||
    (0x2000 ≤ n && n ≤ 0x200A) || n = 0x2028 || n = 0x2029 || n = 0x202F ||
    n = 0x205F || n = 0x3000

/-- src/lexer/helpers.rs `is_digit`: `nom::character::is_digit(c as u8)`.
The Rust cast `c as u8` truncates to the low byte. -/
def isDigitByte (c : Char) : Bool :=
  let b := c.toNat % 256
  0x30 ≤ b && b ≤ 0x39

/-- An actual ASCII decimal digit (what `str::parse::<u32>` and chumsky
`text::digits(10)` accept). -/
def isAsciiDigit (c : Char) : Bool :=
  0x30 ≤ c.toNat && c.toNat ≤ 0x39

/-- src/lexer/helpers.rs `is_letter`: `nom::character::is_alphabetic(c as u8)`. -/
def isLetter (c : Char) : Bool :=
  let b := c.toNat % 256
  (0x41 ≤ b && b ≤ 0x5A) || (0x61 ≤ b && b ≤ 0x7A)

/-- src/lexer/helpers.rs `is_non_ascii`. -/
def isNonAscii (c : Char) : Bool :=
  0x80 ≤ c.toNat

/-- src/lexer/helpers.rs `is_name_start`. -/
def isNameStart (c : Char) : Bool :=
  isLetter c || isNonAscii c || c = '_'

/-- src/lexer/helpers.rs `is_name`. -/
def isName (c : Char) : Bool :=
  isNameStart c || isDigitByte c || c = '-'

/-- src/lexer/helpers.rs `is_valid_escape`: first char `\`, second not `\n`. -/
def isValidEscape : List Char → Bool
  | c :: rest => c = '\\' && rest.head? ≠ some '\n'
  | [] => false

/-- src/lexer/helpers.rs `would_start_identifier`. -/
def wouldStartIdentifier : List Char → Bool
  | '-' :: rest =>
    match rest with
    | c :: _ => if isNameStart c then true else if c = '-' then true else isValidEscape rest
    | [] => isValidEscape []
  | c :: rest =>
    if isNameStart c then true
    else if c = '\\' then isValidEscape (c :: rest)
    else false
  | [] => false

/-- `str::parse::<u32>` digit accumulation on an ASCII digit string. -/
def natOfDigits (ds : List Char) : Nat :=
  ds.foldl (fun a c => a * 10 + (c.toNat - 0x30)) 0

def u32Size : Nat := 4294967296

/-- The Rust cast `as i32` applied to a `u32`-sized value (two's-complement
reinterpretation). -/
def i32Wrap (n : Nat) : Int :=
  let m := n % u32Size
  if m < 2147483648 then (m : Int) else (m : Int) - (u32Size : Int)

/-- Bracket kinds, `Delim` in src/lexer/mod.rs and src/tokenizer.rs. -/
inductive Delim where
  | paren
  | brace
  | bracket
deriving DecidableEq, Repr

/-- `Delim::open`. -/
def Delim.openChar : Delim → Char
  | .paren => '('
  | .brace => '{'
  | .bracket => '['

/-- `Delim::close`. -/
def Delim.closeChar : Delim → Char
  | .paren => ')'
  | .brace => '}'
  | .bracket => ']'

/-- The symbolic `f32` produced by the number lexer: the components fed to
`s as f32 * (i as f32 + f as f32 * 10f32.powi(dExp)) * 10f32.powi(pExp)`.
`dExp` is the (negated, i32-cast) fractional digit count and `pExp` the
(i32-cast, sign-multiplied) exponent argument of the second `powi`. -/
structure F32 where
  sgn : Int
  ip : Nat
  fp : Nat
  dExp : Int
  pExp : Int
deriving DecidableEq, Repr

/-- `Token` of src/lexer/mod.rs and src/tokenizer.rs (identical). -/
inductive Token where
  | whitespace
  | comment (text : List Char)
  | ident (text : List Char)
  | hash (text : List Char)
  | string (text : List Char)
  | number (value : F32)
  | symbol (c : Char)
deriving DecidableEq, Repr

/-- Which parser issued a hard (non-backtracking) error; the Rust errors are
generic strings, the kinds below are our tagging of the `cut` sites. -/
inductive CutKind where
  | unterminatedString
  | unterminatedComment
  | unmatchedOpen
  | other
deriving DecidableEq, Repr

/-- Parser outcomes (see the module docstring). -/
inductive PR (α : Type) where
  | ok (val : α) (rest : List Char)
  | fail
  | cut (k : CutKind)
  | panicked
  | stuck
deriving Repr, DecidableEq

/-- First-success choice on a recoverable failure (chumsky `choice`, winnow
`alt`, nom `alt`): only `fail` falls through to the next alternative. -/
def PR.orElse {α : Type} (r : PR α) (f : Unit → PR α) : PR α :=
  match r with
  | .fail => f ()
  | r => r

def PR.isOk {α : Type} : PR α → Bool
  | .ok _ _ => true
  | _ => false

/-! ## Flat token scanners

The token-level parsers shared (structurally) by src/lexer/mod.rs and
src/tokenizer.rs.  Where the two files differ (`ident_sequence` arity, string
and block-comment error behavior, the digit predicate), both variants are
defined, suffixed `C` (chumsky, src/lexer/mod.rs) and `W` (winnow,
src/tokenizer.rs). -/

/-- `text::whitespace().at_least(1)` / `take_while(1.., char::is_whitespace)`. -/
def whitespaceTok (cs : List Char) : PR Token :=
  let run := cs.takeWhile rustIsWhitespace
  if run.isEmpty then .fail else .ok .whitespace (cs.drop run.length)

/-- `line_comment`: `//` then everything up to (not including) the next `\n`. -/
def lineCommentTok : List Char → PR Token
  | '/' :: '/' :: rest =>
    .ok (.comment (rest.takeWhile (fun c => c ≠ '\n'))) (rest.dropWhile (fun c => c ≠ '\n'))
  | _ => .fail

/-- Split a list at the first occurrence of the two-character sequence `*/`:
returns the part before it and (if found) the part after it. -/
def splitAtStarSlash : List Char → List Char × Option (List Char)
  | [] => ([], none)
  | c :: rest =>
    if c = '*' && rest.head? = some '/' then ([], some rest.tail)
    else
      let (body, after) := splitAtStarSlash rest
      (c :: body, after)

/-- src/lexer/mod.rs `block_comment`: at end of input the comment body simply
ends (`choice((just("*/").ignored(), end()))`). -/
def blockCommentTokC : List Char → PR Token
  | '/' :: '*' :: rest =>
    let (body, after) := splitAtStarSlash rest
    .ok (.comment body) (after.getD [])
  | _ => .fail

/-- src/tokenizer.rs `block_comment`: `cut_err(terminated(take_until(0.., "*/"), "*/"))`. -/
def blockCommentTokW : List Char → PR Token
  | '/' :: '*' :: rest =>
    match splitAtStarSlash rest with
    | (body, some after) => .ok (.comment body) after
    | (_, none) => .cut .unterminatedComment
  | _ => .fail

/-- src/lexer/mod.rs `ident`: `peek_ident_start` then `ident_sequence`, where
chumsky `ident_sequence` is `any().filter(is_name).repeated()` — a possibly
empty run. -/
def identTokC (cs : List Char) : PR Token :=
  if wouldStartIdentifier cs then
    let run := cs.takeWhile isName
    .ok (.ident run) (cs.drop run.length)
  else .fail

/-- src/tokenizer.rs `ident`: `peek_ident_start` then `take_while(1.., is_name)`. -/
def identTokW (cs : List Char) : PR Token :=
  if wouldStartIdentifier cs then
    let run := cs.takeWhile isName
    if run.isEmpty then .fail else .ok (.ident run) (cs.drop run.length)
  else .fail

/-- src/lexer/mod.rs `hash`: `#` then a possibly empty `ident_sequence`. -/
def hashTokC : List Char → PR Token
  | '#' :: rest =>
    let run := rest.takeWhile isName
    .ok (.hash run) (rest.drop run.length)
  | _ => .fail

/-- src/tokenizer.rs `hash`: `#` then `take_while(1.., is_name)`. -/
def hashTokW : List Char → PR Token
  | '#' :: rest =>
    let run := rest.takeWhile isName
    if run.isEmpty then .fail else .ok (.hash run) (rest.drop run.length)
  | _ => .fail

/-- Split a list at the first occurrence of the character `q`: the part
before, and (if found) the part after it. -/
def splitAtChar (q : Char) : List Char → List Char × Option (List Char)
  | [] => ([], none)
  | c :: rest =>
    if c = q then ([], some rest)
    else
      let (body, after) := splitAtChar q rest
      (c :: body, after)

/-- src/lexer/mod.rs `string_with_quote`: a missing closing quote is an
ordinary (recoverable) failure. -/
def stringWithQuoteC (q : Char) : List Char → PR Token
  | c :: rest =>
    if c = q then
      match splitAtChar q rest with
      | (body, some after) => .ok (.string body) after
      | (_, none) => .fail
    else .fail
  | [] => .fail

/-- src/lexer/mod.rs `string`. -/
def stringTokC (cs : List Char) : PR Token :=
  (stringWithQuoteC '"' cs).orElse fun _ => stringWithQuoteC '\'' cs

/-- src/tokenizer.rs `string`: quote, then `cut_err(terminated(take_until(0.., quote), quote))` —
a missing closing quote is a hard error. -/
def stringTokW : List Char → PR Token
  | c :: rest =>
    if c = '"' || c = '\'' then
      match splitAtChar c rest with
      | (body, some after) => .ok (.string body) after
      | (_, none) => .cut .unterminatedString
    else .fail
  | [] => .fail

/-- src/tokenizer.rs `dec_digits`: `take_while(1.., is_digit)` (low-byte digit
predicate) then `digits.parse::<u32>().unwrap()` — the unwrap panics when the
run is not a `u32` (non-ASCII characters whose low byte is a digit, or a value
of `2^32` or more).  Returns the value and the digit count. -/
def decDigitsW (cs : List Char) : PR (Nat × Nat) :=
  let run := cs.takeWhile isDigitByte
  if run.isEmpty then .fail
  else if run.all isAsciiDigit && natOfDigits run < u32Size then
    .ok (natOfDigits run, run.length) (cs.drop run.length)
  else .panicked

/-- src/lexer/mod.rs `dec_digits`: `text::digits(10)` (ASCII digits) then
`digits.parse::<u32>().unwrap()`. -/
def decDigitsC (cs : List Char) : PR (Nat × Nat) :=
  let run := cs.takeWhile isAsciiDigit
  if run.isEmpty then .fail
  else if natOfDigits run < u32Size then
    .ok (natOfDigits run, run.length) (cs.drop run.length)
  else .panicked

/-- `opt_sign`: -1 for `-`, +1 for `+`, +1 otherwise (consumes nothing). -/
def optSign : List Char → Int × List Char
  | '+' :: rest => (1, rest)
  | '-' :: rest => (-1, rest)
  | cs => (1, cs)

/-- The exponent part of `number` and the final value: `[eE]` then
`opt_sign` and `dec_digits`, all backtracked (`or_not` / `opt`) when the
digits are missing; then the components are combined as in the source:
`s as f32 * (i as f32 + f as f32 * 10f32.powi(-(d as i32))) * 10f32.powi(t * e as i32)`. -/
def numberTail (digitsFn : List Char → PR (Nat × Nat)) (s : Int) (i f d : Nat)
    (cs : List Char) : PR Token :=
  let mk : Int → Nat → List Char → PR Token := fun t e rest =>
    .ok (.number ⟨s, i, f, -(i32Wrap d), t * i32Wrap e⟩) rest
  match cs with
  | c :: cs1 =>
    if c = 'e' || c = 'E' then
      let (t, cs2) := optSign cs1
      match digitsFn cs2 with
      | .ok (e, _) cs3 => mk t e cs3
      | .fail => mk 1 0 (c :: cs1)
      | .cut k => .cut k
      | .panicked => .panicked
      | .stuck => .stuck
    else mk 1 0 (c :: cs1)
  | [] => mk 1 0 []

/-- The optional fractional part after a successful integer part:
`just('.').ignore_then(dec_digits()).or_not()` — a `.` not followed by
digits is backtracked entirely. -/
def numberFrac (digitsFn : List Char → PR (Nat × Nat)) (s : Int) (i : Nat)
    (cs2 : List Char) : PR Token :=
  match cs2 with
  | '.' :: cs3 =>
    match digitsFn cs3 with
    | .ok (f, d) cs4 => numberTail digitsFn s i f d cs4
    | .fail => numberTail digitsFn s i 0 0 ('.' :: cs3)
    | .cut k => .cut k
    | .panicked => .panicked
    | .stuck => .stuck
  | cs2 => numberTail digitsFn s i 0 0 cs2

/-- The second mantissa alternative: no integer part, a required `.`-digits
fractional part. -/
def numberNoInt (digitsFn : List Char → PR (Nat × Nat)) (s : Int)
    (cs1 : List Char) : PR Token :=
  match cs1 with
  | '.' :: cs3 =>
    match digitsFn cs3 with
    | .ok (f, d) cs4 => numberTail digitsFn s 0 f d cs4
    | .fail => .fail
    | .cut k => .cut k
    | .panicked => .panicked
    | .stuck => .stuck
  | _ => .fail

/-- `number` (identical in src/lexer/mod.rs and src/tokenizer.rs up to the
digit scanner): optional sign; either digits with an optional `.`-digits
fractional part, or `.`-digits alone; optional exponent. -/
def numberTok (digitsFn : List Char → PR (Nat × Nat)) (cs : List Char) : PR Token :=
  let (s, cs1) := optSign cs
  match digitsFn cs1 with
  | .ok (i, _) cs2 => numberFrac digitsFn s i cs2
  | .fail => numberNoInt digitsFn s cs1
  | .cut k => .cut k
  | .panicked => .panicked
  | .stuck => .stuck

def numberTokC (cs : List Char) : PR Token := numberTok decDigitsC cs

def numberTokW (cs : List Char) : PR Token := numberTok decDigitsW cs

/-- The catch-all token alternative `any().map(Token::Symbol)`. -/
def anySymbolTok : List Char → PR Token
  | c :: rest => .ok (.symbol c) rest
  | [] => .fail

/-- src/lexer/mod.rs `token`: the ordered choice of all token alternatives. -/
def tokenC (cs : List Char) : PR Token :=
  (whitespaceTok cs).orElse fun _ =>
  (lineCommentTok cs).orElse fun _ =>
  (blockCommentTokC cs).orElse fun _ =>
  (identTokC cs).orElse fun _ =>
  (hashTokC cs).orElse fun _ =>
  (stringTokC cs).orElse fun _ =>
  (numberTokC cs).orElse fun _ =>
  anySymbolTok cs

/-- src/tokenizer.rs `token`: the ordered choice of all token alternatives. -/
def tokenW (cs : List Char) : PR Token :=
  (whitespaceTok cs).orElse fun _ =>
  (lineCommentTok cs).orElse fun _ =>
  (blockCommentTokW cs).orElse fun _ =>
  (identTokW cs).orElse fun _ =>
  (hashTokW cs).orElse fun _ =>
  (stringTokW cs).orElse fun _ =>
  (numberTokW cs).orElse fun _ =>
  anySymbolTok cs

/-! ## The winnow token-tree lexer (src/tokenizer.rs) -/

/-- `TokenTree` of src/tokenizer.rs: a flat token or a balanced group. -/
inductive WTT where
  | token (t : Token)
  | delim (d : Delim) (children : List WTT)
deriving Repr

/-- Which delimiter (if any) a character opens or closes. -/
def charDelim : Char → Option (Delim × Bool)
  | '(' => some (.paren, true)
  | '{' => some (.brace, true)
  | '[' => some (.bracket, true)
  | ')' => some (.paren, false)
  | '}' => some (.brace, false)
  | ']' => some (.bracket, false)
  | _ => none

mutual

/-- src/tokenizer.rs `token_tree`: `dispatch!(peek(any))` — an opening
delimiter starts a group, a closing delimiter fails (recoverably), anything
else is a flat token. -/
def tokenTreeW (cs : List Char) : PR WTT :=
  match cs with
  | [] => .fail
  | c :: rest =>
    match charDelim c with
    | some (d, true) => treeTailW d rest
    | some (_, false) => .fail
    | none =>
      match tokenW (c :: rest) with
      | .ok t rest2 => .ok (.token t) rest2
      | .fail => .fail
      | .cut k => .cut k
      | .panicked => .panicked
      | .stuck => .stuck
termination_by (cs.length, 0)

/-- src/tokenizer.rs `delim`, after the open delimiter has been consumed:
`cut_err(terminated(repeat(0.., token_tree), delim.close()))` — the contents,
then the closing delimiter, whose absence is a hard error. -/
def treeTailW (d : Delim) (cs : List Char) : PR WTT :=
  match repW cs with
  | .ok tts rest =>
    match rest with
    | c :: rest2 => if c = d.closeChar then .ok (.delim d tts) rest2 else .cut .unmatchedOpen
    | [] => .cut .unmatchedOpen
  | .fail => .cut .unmatchedOpen
  | .cut k => .cut k
  | .panicked => .panicked
  | .stuck => .stuck
termination_by (cs.length, 2)

/-- `repeat(0.., token_tree)`: collect token trees until the first
recoverable failure; hard errors propagate; a successful parse that consumes
nothing would loop (`stuck`). -/
def repW (cs : List Char) : PR (List WTT) :=
  match tokenTreeW cs with
  | .ok tt rest =>
    if h : rest.length < cs.length then
      match repW rest with
      | .ok tts rest2 => .ok (tt :: tts) rest2
      | .fail => .fail
      | .cut k => .cut k
      | .panicked => .panicked
      | .stuck => .stuck
    else .stuck
  | .fail => .ok [] cs
  | .cut k => .cut k
  | .panicked => .panicked
  | .stuck => .stuck
termination_by (cs.length, 1)

end

/-- src/tokenizer.rs `tokenize`: `repeat(0.., token_tree).parse(input)` —
the winnow `parse` entry point also requires the whole input to be consumed. -/
def tokenizeW (cs : List Char) : PR (List WTT) :=
  match repW cs with
  | .ok ts [] => .ok ts []
  | .ok _ (_ :: _) => .fail
  | .fail => .fail
  | .cut k => .cut k
  | .panicked => .panicked
  | .stuck => .stuck

/-! ## Flat scanning and delimiter balance

`flatLex` runs the same token scanner over the whole input but keeps
delimiters as flat items instead of recursing; `balStack` is standard bracket
matching over the flat item sequence.  Together they express, independently of
the recursive-descent lexer, what "the input contains an unmatched delimiter
(at token level)" means. -/

inductive FlatItem where
  | tok (t : Token)
  | opener (d : Delim)
  | closer (d : Delim)
deriving DecidableEq, Repr

inductive FlatRes where
  | ok (items : List FlatItem)
  | fail
  | cut (k : CutKind)
  | panicked
  | stuck
deriving DecidableEq, Repr

def FlatRes.push (pre : List FlatItem) : FlatRes → FlatRes
  | .ok items => .ok (pre ++ items)
  | r => r

/-- Scan the input into a flat item sequence with src/tokenizer.rs tokens:
delimiter characters become flat open/close items, everything else goes
through `token`. -/
def flatLex (cs : List Char) : FlatRes :=
  match cs with
  | [] => .ok []
  | c :: rest =>
    match charDelim c with
    | some (d, true) => (flatLex rest).push [.opener d]
    | some (d, false) => (flatLex rest).push [.closer d]
    | none =>
      match tokenW (c :: rest) with
      | .ok t rest2 =>
        if hl : rest2.length < rest.length + 1 then (flatLex rest2).push [.tok t]
        else .stuck
      | .fail => .fail
      | .cut k => .cut k
      | .panicked => .panicked
      | .stuck => .stuck
termination_by cs.length
decreasing_by all_goals (simp only [List.length_cons]; omega)

/-! ### Characterization of the splitters and token scanners -/

/-- Does the two-character sequence `*/` occur anywhere in the list? -/
def hasStarSlash : List Char → Bool
  | [] => false
  | c :: rest => (c = '*' && rest.head? = some '/') || hasStarSlash rest

/-- Bracket matching over flat items with an explicit stack of open
delimiters. -/
def balStack : List FlatItem → List Delim → Bool
  | [], [] => true
  | [], _ :: _ => false
  | .tok _ :: rest, stk => balStack rest stk
  | .opener d :: rest, stk => balStack rest (d :: stk)
  | .closer _ :: _, [] => false
  | .closer d :: rest, d2 :: stk => if d = d2 then balStack rest stk else false

/-- The flat item sequence has balanced delimiters. -/
def isBalanced (items : List FlatItem) : Bool := balStack items []

mutual

/-- Flatten a token tree back into flat items. -/
def flatTT : WTT → List FlatItem
  | .token t => [.tok t]
  | .delim d children => .opener d :: (flatListTT children ++ [.closer d])

/-- Flatten a token-tree sequence back into flat items. -/
def flatListTT : List WTT → List FlatItem
  | [] => []
  | t :: ts => flatTT t ++ flatListTT ts

end


/-! ### Hash tokens (claim C9) -/

/-- A token that, if it is a `Hash`, has nonempty text. -/
def Token.hashOk : Token → Bool
  | .hash t => !t.isEmpty
  | _ => true

/-! ### The number grammar (claim C4) -/

/-- Is the next input an exponent continuation `[eE] sign? digit` (with the
low-byte digit predicate the lexer uses)?  Used to state maximal-munch side
conditions. -/
def expStartB : List Char → Bool
  | c :: r =>
    (c = 'e' || c = 'E') && !(((optSign r).2.takeWhile isDigitByte).isEmpty)
  | [] => false

/-- Is the next input a fractional continuation `.digit` (low-byte digit
predicate)?  Used for maximal-munch side conditions. -/
def dotDigitStartB : List Char → Bool
  | '.' :: r => !((r.takeWhile isDigitByte).isEmpty)
  | _ => false

/-! ## The chumsky token-tree lexer (src/lexer/mod.rs)

Spans are character offsets `(start, stop)` (the source's
`SimpleSpan`); every token tree is paired with its span.  The spanned value
returned by a parser always has `stop` equal to the input position after the
parse. -/

/-- `TokenTree` of src/lexer/mod.rs: children of a tree carry their spans. -/
inductive CTT where
  | token (t : Token)
  | tree (d : Delim) (children : List (CTT × Nat × Nat))
deriving Repr

mutual

/-- src/lexer/mod.rs `token_tree` at input position `pos`:
`choice((tree(Paren), tree(Brace), tree(Bracket), token))`, with the result
spanned by `map_with`. -/
def tokenTreeC (cs : List Char) (pos : Nat) : PR (CTT × Nat × Nat) :=
  match treeC .paren cs pos with
  | .fail =>
    match treeC .brace cs pos with
    | .fail =>
      match treeC .bracket cs pos with
      | .fail =>
        match tokenC cs with
        | .ok t rest => .ok (.token t, pos, pos + (cs.length - rest.length)) rest
        | .fail => .fail
        | .cut k => .cut k
        | .panicked => .panicked
        | .stuck => .stuck
      | r => r
    | r => r
  | r => r
termination_by (cs.length, 1)

/-- src/lexer/mod.rs `tree`: the open delimiter, the repeated children (each
required, by `and_is`, to not start at the close delimiter), then the close
delimiter.  There is no cut: every failure here backtracks. -/
def treeC (d : Delim) (cs : List Char) (pos : Nat) : PR (CTT × Nat × Nat) :=
  match cs with
  | c :: rest =>
    if c = d.openChar then
      match repInnerC d rest (pos + 1) with
      | .ok (children, pos2) rest2 =>
        match rest2 with
        | c2 :: rest3 =>
          if c2 = d.closeChar then .ok (.tree d children, pos, pos2 + 1) rest3 else .fail
        | [] => .fail
      | .fail => .fail
      | .cut k => .cut k
      | .panicked => .panicked
      | .stuck => .stuck
    else .fail
  | [] => .fail
termination_by (cs.length, 0)

/-- `token_tree.and_is(just(delim.close()).not()).repeated()` inside `tree`:
collect children until the close delimiter is next or a child fails; a child
succeeding without consuming input makes the repetition loop (`stuck`).
Returns the children and the position after them. -/
def repInnerC (d : Delim) (cs : List Char) (pos : Nat) : PR (List (CTT × Nat × Nat) × Nat) :=
  if cs.head? = some d.closeChar then .ok ([], pos) cs
  else
    match tokenTreeC cs pos with
    | .ok sp rest =>
      if _h : rest.length < cs.length then
        match repInnerC d rest sp.2.2 with
        | .ok (children, pos2) rest2 => .ok (sp :: children, pos2) rest2
        | .fail => .fail
        | .cut k => .cut k
        | .panicked => .panicked
        | .stuck => .stuck
      else .stuck
    | .fail => .ok ([], pos) cs
    | .cut k => .cut k
    | .panicked => .panicked
    | .stuck => .stuck
termination_by (cs.length, 2)

end

/-- `token_tree().repeated().collect()`: the top-level sequence of spanned
token trees. -/
def lexGoC (cs : List Char) (pos : Nat) : PR (List (CTT × Nat × Nat)) :=
  match tokenTreeC cs pos with
  | .ok sp rest =>
    if _h : rest.length < cs.length then
      match lexGoC rest sp.2.2 with
      | .ok tts rest2 => .ok (sp :: tts) rest2
      | .fail => .fail
      | .cut k => .cut k
      | .panicked => .panicked
      | .stuck => .stuck
    else .stuck
  | .fail => .ok [] cs
  | .cut k => .cut k
  | .panicked => .panicked
  | .stuck => .stuck
termination_by cs.length

/-- src/lexer/mod.rs `lexer().parse(input)`: the top-level repetition, with
chumsky `parse` requiring the whole input to be consumed. -/
def lexerC (cs : List Char) : PR (List (CTT × Nat × Nat)) :=
  match lexGoC cs 0 with
  | .ok ts [] => .ok ts []
  | .ok _ (_ :: _) => .fail
  | .fail => .fail
  | .cut k => .cut k
  | .panicked => .panicked
  | .stuck => .stuck

/-! ## The `!important` post-pass of `declaration` (src/parser/mod.rs)

The chumsky token-tree parser's `declaration` captures the raw value slice
(`&[Spanned<TokenTree>]`), then in its final closure trims trailing junk,
splits off a trailing `[Symbol('!'), Ident("important")]` chunk, and trims
again.  That closure is pure, so it is embedded directly as a function of the
raw value slice. -/

/-- A spanned chumsky token tree, `Spanned<TokenTree>`. -/
abbrev STT := CTT × Nat × Nat

/-- The junk pattern of `strip_trailing_junk`:
`TokenTree::Token(Token::Whitespace | Token::Comment(_))`. -/
def isJunkSTT : STT → Bool
  | (.token .whitespace, _, _) => true
  | (.token (.comment _), _, _) => true
  | _ => false

/-- src/parser/mod.rs `strip_trailing_junk`: drop junk spanned-token-trees
from the end of the slice. -/
def stripTrailingJunk : List STT → List STT
  | [] => []
  | x :: xs =>
    match stripTrailingJunk xs with
    | [] => if isJunkSTT x then [] else [x]
    | ys => x :: ys

/-- `split_last_chunk::<2>`: the slice without its last two elements, and
those two elements, when the length is at least 2. -/
def splitLastTwo {α : Type} : List α → Option (List α × α × α)
  | [] => none
  | [_] => none
  | x :: y :: ys =>
    match splitLastTwo (y :: ys) with
    | some (pre, a, b) => some (x :: pre, a, b)
    | none => some ([], x, y)

/-- Does a two-element chunk match
`[(TokenTree::Token(Token::Symbol('!')), _), (TokenTree::Token(Token::Ident("important")), _)]`? -/
def isImportantChunk : STT → STT → Bool
  | (.token (.symbol c), _, _), (.token (.ident s), _, _) =>
    c = '!' && s = "important".toList
  | _, _ => false

/-- The value/important split at the end of src/parser/mod.rs `declaration`:
trim trailing junk; if the last two elements are `!` `important`, drop them
and set the flag; trim trailing junk again. -/
def declarationValueImportant (value : List STT) : List STT × Bool :=
  let v1 := stripTrailingJunk value
  match splitLastTwo v1 with
  | some (pre, a, b) =>
    if isImportantChunk a b then (stripTrailingJunk pre, true) else (v1, false)
  | none => (v1, false)

/-- Every maximal ASCII-digit run anywhere in the input has a value below
`2^32` (so no `parse::<u32>().unwrap()` can panic). -/
def digitRunsOk : List Char → Bool
  | [] => true
  | c :: rest =>
    decide (natOfDigits ((c :: rest).takeWhile isAsciiDigit) < u32Size) && digitRunsOk rest

/-- A token alternative is total when it either (recoverably) fails or
succeeds with a strictly shorter suffix of the input as remainder. -/
def TokTotal (cs : List Char) (p : PR Token) : Prop :=
  p = .fail ∨ ∃ t r, p = .ok t r ∧ r <:+ cs ∧ r.length < cs.length

/-! ## The nom text-level parser layer

src/parser/expression.rs, src/parser/mixin.rs, src/parser/string.rs,
src/parser/selector.rs and src/lexer/junk.rs are nom parsers over raw text.
They import `Expression`, `BinaryOperator`, `MixinCall(Argument)` and a small
lexer-helper module (`token`, `symbol`, `ident`, `name`, `numeric`,
`at_keyword`, `parse`) from `crate::ast` / `crate::lexer`, but those items are
not among the repository's files (src/ast.rs stops at the analogous `Value`
enum, src/lexer/ holds the chumsky lexer).  The missing items are modelled
from the spec (each marked so); everything else below is translated from the
named source files.

nom semantics in the `PR` model: `Err::Error` is `fail`, `Err::Failure`
(from `cut`) is `cut`; repetitions (`many0`/`many1`/`fold_many0`/
`separated_list1`) error out when an iteration consumes nothing, as nom's do,
and carry a fuel argument (exhaustion is `stuck`, unreachable at the fuels
used since every iteration consumes). -/

/-- Modelled from the spec: binary operators of §4.3 (named as in the source's
`BinaryOperator` usage). -/
inductive BinaryOperator where
  | add
  | subtract
  | multiply
  | divide
  | equality
  | lessThan
  | lessThanOrEqualTo
  | greaterThan
  | greaterThanOrEqualTo
  | and
  | or
deriving DecidableEq, Repr

/-- `SimpleSelector` of src/ast.rs (constructor names adjusted where Lean
reserves the word). -/
inductive SimpleSelector where
  | typeSel (name : List Char)
  | universal
  | idSel (name : List Char)
  | classSel (name : List Char)
  | pseudoClass (name : List Char)
  | pseudoElement (name : List Char)
  | negation (inner : SimpleSelector)
deriving DecidableEq, Repr

/-- `InterpolatedValue` of src/ast.rs. -/
inductive InterpolatedValue where
  | variable' (name : List Char)
  | property (name : List Char)
deriving DecidableEq, Repr

/-- `Lookup` of src/ast.rs. -/
inductive Lookup where
  | last
  | ident (name : List Char)
  | variable' (name : List Char)
  | property (name : List Char)
  | variableVariable (name : List Char)
  | variableProperty (name : List Char)
  | interpolatedString (parts : List (List Char)) (vals : List InterpolatedValue)
deriving DecidableEq, Repr

mutual

/-- Modelled from the spec: the `Expression` enum the parser modules import
(§4.3 and the sibling `Value` enum of src/ast.rs give its shape).  A detached
ruleset stores the raw block text (its item structure is outside this
development's claims). -/
inductive Expression where
  | semicolonList (xs : List Expression)
  | commaList (xs : List Expression)
  | spaceList (xs : List Expression)
  | detachedRuleset (raw : List Char)
  | binaryOperation (op : BinaryOperator) (lhs rhs : Expression)
  | variable' (name : List Char)
  | variableLookup (name : List Char) (lookups : List Lookup)
  | property (name : List Char)
  | ident (name : List Char)
  | numeric (v : F32) (unit : Option (List Char))
  | functionCall (name : List Char) (args : Expression)
  | mixinCall (call : MixinCall) (lookups : List Lookup)
  | quotedString (s : List Char)
  | interpolatedString (parts : List (List Char)) (vals : List InterpolatedValue)

/-- Modelled from the spec: the `MixinCall` struct (selector plus arguments). -/
inductive MixinCall where
  | mk (selector : List SimpleSelector) (arguments : List MixinCallArgument)

/-- Modelled from the spec: a mixin-call argument (optional name, value). -/
inductive MixinCallArgument where
  | mk (name : Option (List Char)) (value : Expression)

end

/-- `MixinArgument` of src/parser/mixin.rs (the generic slot the argument
loop collects before lowering). -/
inductive MixinArgument where
  | variable' (name : List Char) (value : Option Expression)
  | literal (value : Expression)
  | variadic (name : Option (List Char))

/-- `MixinDeclarationArgument` as lowered by the `TryFrom` impl in
src/parser/mixin.rs. -/
inductive MixinDeclarationArgument where
  | variable' (name : List Char) (default : Option Expression)
  | literal (value : Expression)
  | variadic (name : Option (List Char))

/-- `nom::character::complete::multispace1`'s character class. -/
def isMultispace (c : Char) : Bool :=
  c = ' ' || c = '\t' || c = '\r' || c = '\n'

/-- If `s` is a prefix of `cs`, the remainder after it. -/
def prefixDrop : List Char → List Char → Option (List Char)
  | [], cs => some cs
  | a :: as, cs =>
    match cs with
    | [] => none
    | b :: bs => if a = b then prefixDrop as bs else none

/-- `nom::bytes::complete::tag`. -/
def tag (s : List Char) (cs : List Char) : PR (List Char) :=
  match prefixDrop s cs with
  | some r => .ok s r
  | none => .fail

/-- `nom::character::complete::char`. -/
def charP (c : Char) : List Char → PR Char
  | c2 :: rest => if c2 = c then .ok c rest else .fail
  | [] => .fail

/-- src/lexer/junk.rs `whitespace`: `multispace1`. -/
def junk_whitespace (cs : List Char) : PR Unit :=
  let run := cs.takeWhile isMultispace
  if run.isEmpty then .fail else .ok () (cs.drop run.length)

/-- src/lexer/junk.rs `line_comment`: `//` then `take_while(!= newline)`. -/
def junk_line_comment (cs : List Char) : PR Unit :=
  match tag ("//".toList) cs with
  | .ok _ r => .ok () (r.dropWhile (fun c => c ≠ '\n'))
  | .fail => .fail
  | .cut k => .cut k
  | .panicked => .panicked
  | .stuck => .stuck

/-- src/lexer/junk.rs `block_comment`: `/*` then `cut(take_until("*/"))` and
`*/` — an unterminated block comment is a hard error here. -/
def junk_block_comment (cs : List Char) : PR Unit :=
  match tag ("/*".toList) cs with
  | .ok _ r =>
    match splitAtStarSlash r with
    | (_, some after) => .ok () after
    | (_, none) => .cut .unterminatedComment
  | .fail => .fail
  | .cut k => .cut k
  | .panicked => .panicked
  | .stuck => .stuck

/-- src/lexer/junk.rs `junk`: one junk element. -/
def junk (cs : List Char) : PR Unit :=
  (junk_whitespace cs).orElse fun _ =>
  (junk_line_comment cs).orElse fun _ =>
  junk_block_comment cs

/-- src/lexer/junk.rs `junk0`: `many0(junk)`, with nom's zero-progress check
and fuel. -/
def junk0 : Nat → List Char → PR Unit
  | 0, _ => .stuck
  | fuel + 1, cs =>
    match junk cs with
    | .ok _ r => if r.length < cs.length then junk0 fuel r else .fail
    | .fail => .ok () cs
    | .cut k => .cut k
    | .panicked => .panicked
    | .stuck => .stuck

/-- src/lexer/junk.rs `junk1`: `many1(junk)`. -/
def junk1 (cs : List Char) : PR Unit :=
  match junk cs with
  | .ok _ r => junk0 (r.length + 1) r
  | .fail => .fail
  | .cut k => .cut k
  | .panicked => .panicked
  | .stuck => .stuck

/-- Modelled from the spec: the missing lexer helper `token(f)` — junk is
skipped before `f` (§4.2: junk is skipped between recognized constructs). -/
def token {α : Type} (f : List Char → PR α) (cs : List Char) : PR α :=
  match junk0 (cs.length + 1) cs with
  | .ok _ r => f r
  | .fail => .fail
  | .cut k => .cut k
  | .panicked => .panicked
  | .stuck => .stuck

/-- Modelled from the spec: the missing lexer helper `symbol(s)` =
`token(tag(s))`. -/
def symbol (s : List Char) : List Char → PR (List Char) :=
  token (tag s)

/-- Modelled from the spec: the missing lexer helper `ident` — an identifier
start (per `would_start_identifier` of src/lexer/helpers.rs) followed by a
nonempty name-character run. -/
def ident (cs : List Char) : PR (List Char) :=
  if wouldStartIdentifier cs then
    let run := cs.takeWhile isName
    if run.isEmpty then .fail else .ok run (cs.drop run.length)
  else .fail

/-- Modelled from the spec: the missing lexer helper `name` — a nonempty
name-character run (digits allowed, no start restriction). -/
def name (cs : List Char) : PR (List Char) :=
  let run := cs.takeWhile isName
  if run.isEmpty then .fail else .ok run (cs.drop run.length)

/-- Modelled from the spec: the missing lexer helper `at_keyword` — junk,
then `@` immediately followed by an identifier. -/
def at_keyword : List Char → PR (List Char) :=
  token fun cs =>
    match cs with
    | '@' :: rest => ident rest
    | _ => .fail

/-- Modelled from the spec: the missing lexer helper `numeric` — a §4.1
number (the `number` grammar shared by both lexers, here over text with the
low-byte digit scanner) immediately followed (no junk) by an optional unit:
an identifier or `%`. -/
def numeric (cs : List Char) : PR (F32 × Option (List Char)) :=
  match numberTok decDigitsW cs with
  | .ok (.number v) r =>
    (match ident r with
     | .ok u r2 => .ok (v, some u) r2
     | _ =>
       match r with
       | '%' :: r2 => .ok (v, some (['%'] : List Char)) r2
       | _ => .ok (v, none) r)
  | .ok _ _ => .fail
  | .fail => .fail
  | .cut k => .cut k
  | .panicked => .panicked
  | .stuck => .stuck

/-- Modelled from the spec: the missing lexer helper `parse` (used around
combinator symbols) — treated as a transparent wrapper. -/
def parse {α : Type} (f : List Char → PR α) : List Char → PR α := f

/-- `nom::multi::fold_many0` with nom's zero-progress error and fuel. -/
def fold_many0 {α β : Type} (p : List Char → PR α) (g : β → α → β) :
    Nat → β → List Char → PR β
  | 0, _, _ => .stuck
  | fuel + 1, acc, cs =>
    match p cs with
    | .ok a r =>
      if r.length < cs.length then fold_many0 p g fuel (g acc a) r else .fail
    | .fail => .ok acc cs
    | .cut k => .cut k
    | .panicked => .panicked
    | .stuck => .stuck

/-- The loop of `nom::multi::many1` after its first element. -/
def many0_go {α : Type} (p : List Char → PR α) :
    Nat → List α → List Char → PR (List α)
  | 0, _, _ => .stuck
  | fuel + 1, acc, cs =>
    match p cs with
    | .ok a r =>
      if r.length < cs.length then many0_go p fuel (acc ++ [a]) r else .fail
    | .fail => .ok acc cs
    | .cut k => .cut k
    | .panicked => .panicked
    | .stuck => .stuck

/-- `nom::multi::many1`. -/
def many1 {α : Type} (p : List Char → PR α) (cs : List Char) : PR (List α) :=
  match p cs with
  | .ok a r => many0_go p (r.length + 1) [a] r
  | .fail => .fail
  | .cut k => .cut k
  | .panicked => .panicked
  | .stuck => .stuck

/-- The loop of `nom::multi::separated_list1`: further `sep`-then-element
pairs, both backtracked together when either fails. -/
def sep_list_go {α β : Type} (sep : List Char → PR β) (p : List Char → PR α) :
    Nat → List α → List Char → PR (List α)
  | 0, _, _ => .stuck
  | fuel + 1, acc, cs =>
    match sep cs with
    | .ok _ r1 =>
      (match p r1 with
       | .ok a r2 =>
         if r2.length < cs.length then sep_list_go sep p fuel (acc ++ [a]) r2
         else .fail
       | .fail => .ok acc cs
       | .cut k => .cut k
       | .panicked => .panicked
       | .stuck => .stuck)
    | .fail => .ok acc cs
    | .cut k => .cut k
    | .panicked => .panicked
    | .stuck => .stuck

/-- `nom::multi::separated_list1`. -/
def separated_list1 {α β : Type} (sep : List Char → PR β)
    (p : List Char → PR α) (cs : List Char) : PR (List α) :=
  match p cs with
  | .ok a r => sep_list_go sep p (r.length + 1) [a] r
  | .fail => .fail
  | .cut k => .cut k
  | .panicked => .panicked
  | .stuck => .stuck

/-- src/parser/string.rs `string_part`: everything up to (excluding) the
closing quote or the start of a `@{`/`${` interpolation; reaching end of
input without either is an error (`many_till`'s terminator never matches). -/
def string_part (q : Char) : List Char → PR (List Char)
  | [] => .fail
  | c :: rest =>
    if c = q then .ok [] (c :: rest)
    else if (c = '@' || c = '$') && rest.head? = some '\x7b' then .ok [] (c :: rest)
    else
      match string_part q rest with
      | .ok part r => .ok (c :: part) r
      | .fail => .fail
      | .cut k => .cut k
      | .panicked => .panicked
      | .stuck => .stuck

/-- One alternative of `interpolated_part`: `prefix-tag ident }` mapped by `g`. -/
def interp_alt (t : List Char) (g : List Char → InterpolatedValue)
    (cs : List Char) : PR InterpolatedValue :=
  match tag t cs with
  | .ok _ r =>
    (match ident r with
     | .ok nm r2 =>
       (match tag ("\x7d".toList) r2 with
        | .ok _ r3 => .ok (g nm) r3
        | .fail => .fail
        | .cut k => .cut k
        | .panicked => .panicked
        | .stuck => .stuck)
     | .fail => .fail
     | .cut k => .cut k
     | .panicked => .panicked
     | .stuck => .stuck)
  | _ => .fail

/-- src/parser/string.rs `interpolated_part`: `@{ident}` or `${ident}`. -/
def interpolated_part (cs : List Char) : PR InterpolatedValue :=
  (interp_alt ("@\x7b".toList) .variable' cs).orElse fun _ =>
  interp_alt ("$\x7b".toList) .property cs

/-- The pair `(interpolated_part, string_part)` folded by
`interpolated_string_tail`. -/
def ip_pair (q : Char) (cs : List Char) : PR (InterpolatedValue × List Char) :=
  match interpolated_part cs with
  | .ok v r =>
    (match string_part q r with
     | .ok part r2 => .ok (v, part) r2
     | .fail => .fail
     | .cut k => .cut k
     | .panicked => .panicked
     | .stuck => .stuck)
  | .fail => .fail
  | .cut k => .cut k
  | .panicked => .panicked
  | .stuck => .stuck

/-- src/parser/string.rs `interpolated_string_tail`: `fold_many1` of the
part pairs, then the closing quote. -/
def interpolated_string_tail (q : Char) (first : List Char) (cs : List Char) :
    PR Expression :=
  match ip_pair q cs with
  | .ok vp r =>
    (match fold_many0 (ip_pair q)
        (fun (acc : List (List Char) × List InterpolatedValue) x =>
          (acc.1 ++ [x.2], acc.2 ++ [x.1]))
        (r.length + 1) ([first, vp.2], [vp.1]) r with
     | .ok acc r2 =>
       (match charP q r2 with
        | .ok _ r3 => .ok (.interpolatedString acc.1 acc.2) r3
        | .fail => .fail
        | .cut k => .cut k
        | .panicked => .panicked
        | .stuck => .stuck)
     | .fail => .fail
     | .cut k => .cut k
     | .panicked => .panicked
     | .stuck => .stuck)
  | .fail => .fail
  | .cut k => .cut k
  | .panicked => .panicked
  | .stuck => .stuck

/-- src/parser/string.rs `string`: optional `~`, the opening quote, a first
literal part, then either the closing quote (simple quoted string) or an
interpolated tail. -/
def string (q : Char) (cs : List Char) : PR Expression :=
  let cs1 := match charP '~' cs with
    | .ok _ r => r
    | _ => cs
  match charP q cs1 with
  | .ok _ r1 =>
    (match string_part q r1 with
     | .ok first r2 =>
       (match charP q r2 with
        | .ok _ r3 => .ok (.quotedString first) r3
        | _ => interpolated_string_tail q first r2)
     | .fail => .fail
     | .cut k => .cut k
     | .panicked => .panicked
     | .stuck => .stuck)
  | .fail => .fail
  | .cut k => .cut k
  | .panicked => .panicked
  | .stuck => .stuck

/-- src/parser/selector.rs `id_selector`: `#` then `name`. -/
def id_selector (cs : List Char) : PR SimpleSelector :=
  match tag ("#".toList) cs with
  | .ok _ r =>
    (match name r with
     | .ok nm r2 => .ok (.idSel nm) r2
     | .fail => .fail
     | .cut k => .cut k
     | .panicked => .panicked
     | .stuck => .stuck)
  | _ => .fail

/-- src/parser/selector.rs `class_selector`: `.` then `ident`. -/
def class_selector (cs : List Char) : PR SimpleSelector :=
  match tag (".".toList) cs with
  | .ok _ r =>
    (match ident r with
     | .ok nm r2 => .ok (.classSel nm) r2
     | .fail => .fail
     | .cut k => .cut k
     | .panicked => .panicked
     | .stuck => .stuck)
  | _ => .fail

/-- src/parser/expression.rs `sub`: a parenthesized sub-expression. -/
def sub (f : List Char → PR Expression) (cs : List Char) : PR Expression :=
  match symbol ("(".toList) cs with
  | .ok _ r =>
    (match f r with
     | .ok e r2 =>
       (match symbol (")".toList) r2 with
        | .ok _ r3 => .ok e r3
        | .fail => .fail
        | .cut k => .cut k
        | .panicked => .panicked
        | .stuck => .stuck)
     | .fail => .fail
     | .cut k => .cut k
     | .panicked => .panicked
     | .stuck => .stuck)
  | .fail => .fail
  | .cut k => .cut k
  | .panicked => .panicked
  | .stuck => .stuck

/-- src/parser/expression.rs `semicolon_list`. -/
def semicolon_list (f : List Char → PR Expression) (cs : List Char) :
    PR Expression :=
  match separated_list1 (symbol (";".toList)) f cs with
  | .ok xs r => .ok (.semicolonList xs) r
  | .fail => .fail
  | .cut k => .cut k
  | .panicked => .panicked
  | .stuck => .stuck

/-- src/parser/expression.rs `comma_list`. -/
def comma_list (f : List Char → PR Expression) (cs : List Char) :
    PR Expression :=
  match separated_list1 (symbol (",".toList)) f cs with
  | .ok xs r => .ok (.commaList xs) r
  | .fail => .fail
  | .cut k => .cut k
  | .panicked => .panicked
  | .stuck => .stuck

/-- src/parser/expression.rs `space_list`. -/
def space_list (f : List Char → PR Expression) (cs : List Char) :
    PR Expression :=
  match many1 f cs with
  | .ok xs r => .ok (.spaceList xs) r
  | .fail => .fail
  | .cut k => .cut k
  | .panicked => .panicked
  | .stuck => .stuck

/-- The operator-then-operand pair folded by `binary_operation`. -/
def op_pair (operand : List Char → PR Expression)
    (operator : List Char → PR BinaryOperator) (cs : List Char) :
    PR (BinaryOperator × Expression) :=
  match operator cs with
  | .ok op r1 =>
    (match operand r1 with
     | .ok rhs r2 => .ok (op, rhs) r2
     | .fail => .fail
     | .cut k => .cut k
     | .panicked => .panicked
     | .stuck => .stuck)
  | .fail => .fail
  | .cut k => .cut k
  | .panicked => .panicked
  | .stuck => .stuck

/-- src/parser/expression.rs `binary_operation`: first operand, then
`fold_many0(pair(operator, operand))` building left-nested operations. -/
def binary_operation (operand : List Char → PR Expression)
    (operator : List Char → PR BinaryOperator) (cs : List Char) :
    PR Expression :=
  match operand cs with
  | .ok first r =>
    fold_many0 (op_pair operand operator)
      (fun l (p : BinaryOperator × Expression) => .binaryOperation p.1 l p.2)
      (r.length + 1) first r
  | .fail => .fail
  | .cut k => .cut k
  | .panicked => .panicked
  | .stuck => .stuck

/-- The operator alternatives of `logical_operation`, in source order. -/
def logical_operator (cs : List Char) : PR BinaryOperator :=
  match symbol ("and".toList) cs with
  | .ok _ r => .ok .and r
  | _ =>
    match symbol ("or".toList) cs with
    | .ok _ r => .ok .or r
    | _ => .fail

/-- The operator alternatives of `comparison_operation`, in source order:
`=`, `<`, `<=`, `>`, `>=`. -/
def comparison_operator (cs : List Char) : PR BinaryOperator :=
  match symbol ("=".toList) cs with
  | .ok _ r => .ok .equality r
  | _ =>
    match symbol ("<".toList) cs with
    | .ok _ r => .ok .lessThan r
    | _ =>
      match symbol ("<=".toList) cs with
      | .ok _ r => .ok .lessThanOrEqualTo r
      | _ =>
        match symbol (">".toList) cs with
        | .ok _ r => .ok .greaterThan r
        | _ =>
          match symbol (">=".toList) cs with
          | .ok _ r => .ok .greaterThanOrEqualTo r
          | _ => .fail

/-- The operator alternatives of `sum_operation`, in source order. -/
def sum_operator (cs : List Char) : PR BinaryOperator :=
  match symbol ("+".toList) cs with
  | .ok _ r => .ok .add r
  | _ =>
    match symbol ("-".toList) cs with
    | .ok _ r => .ok .subtract r
    | _ => .fail

/-- The operator alternatives of `product_operation`, in source order. -/
def product_operator (cs : List Char) : PR BinaryOperator :=
  match symbol ("*".toList) cs with
  | .ok _ r => .ok .multiply r
  | _ =>
    match symbol ("/".toList) cs with
    | .ok _ r => .ok .divide r
    | _ => .fail

/-- src/parser/expression.rs `product_operation`, parameterized by
`simple_expression` (the knot is tied by fuel there). -/
def product_operation (simpleF : List Char → PR Expression) :
    List Char → PR Expression :=
  binary_operation simpleF product_operator

/-- src/parser/expression.rs `sum_operation`. -/
def sum_operation (simpleF : List Char → PR Expression) :
    List Char → PR Expression :=
  binary_operation (product_operation simpleF) sum_operator

/-- src/parser/expression.rs `comparison_operation`. -/
def comparison_operation (simpleF : List Char → PR Expression) :
    List Char → PR Expression :=
  binary_operation (sum_operation simpleF) comparison_operator

/-- src/parser/expression.rs `logical_operation`. -/
def logical_operation (simpleF : List Char → PR Expression) :
    List Char → PR Expression :=
  binary_operation (comparison_operation simpleF) logical_operator

/-- src/parser/expression.rs `comma_separated_arg_value`. -/
def comma_separated_arg_value (simpleF : List Char → PR Expression) :
    List Char → PR Expression :=
  space_list (sum_operation simpleF)

/-- src/parser/expression.rs `semicolon_separated_arg_value`. -/
def semicolon_separated_arg_value (simpleF : List Char → PR Expression) :
    List Char → PR Expression :=
  comma_list (space_list (sum_operation simpleF))

/-- `preceded(tag(t), ident)`, the shape shared by several helpers. -/
def tag_ident (t : List Char) (cs : List Char) : PR (List Char) :=
  match tag t cs with
  | .ok _ r => ident r
  | .fail => .fail
  | .cut k => .cut k
  | .panicked => .panicked
  | .stuck => .stuck

/-- One `token(preceded(tag(t), ident))` lookup alternative mapped by `g`. -/
def lookup_map (t : List Char) (g : List Char → Lookup) (cs : List Char) :
    PR Lookup :=
  match token (tag_ident t) cs with
  | .ok nm r => .ok (g nm) r
  | .fail => .fail
  | .cut k => .cut k
  | .panicked => .panicked
  | .stuck => .stuck

/-- The `inner` alternatives of src/parser/expression.rs `lookup`, in source
order: `$@`, `@@`, `$`, `@`, bare ident, empty (Last). -/
def lookup_inner (cs : List Char) : PR Lookup :=
  (lookup_map ("$@".toList) .variableProperty cs).orElse fun _ =>
  (lookup_map ("@@".toList) .variableVariable cs).orElse fun _ =>
  (lookup_map ("$".toList) .property cs).orElse fun _ =>
  (lookup_map ("@".toList) .variable' cs).orElse fun _ =>
  ((match token ident cs with
    | .ok nm r => .ok (.ident nm) r
    | .fail => .fail
    | .cut k => .cut k
    | .panicked => .panicked
    | .stuck => .stuck : PR Lookup)).orElse fun _ =>
  match symbol ([] : List Char) cs with
  | .ok _ r => .ok .last r
  | .fail => .fail
  | .cut k => .cut k
  | .panicked => .panicked
  | .stuck => .stuck

/-- src/parser/expression.rs `lookup`: `[`, `cut(inner)`, `]`. -/
def lookup (cs : List Char) : PR Lookup :=
  match symbol ("[".toList) cs with
  | .ok _ r =>
    (match lookup_inner r with
     | .ok v r2 =>
       (match symbol ("]".toList) r2 with
        | .ok _ r3 => .ok v r3
        | .fail => .fail
        | .cut k => .cut k
        | .panicked => .panicked
        | .stuck => .stuck)
     | .fail => .cut .other
     | .cut k => .cut k
     | .panicked => .panicked
     | .stuck => .stuck)
  | .fail => .fail
  | .cut k => .cut k
  | .panicked => .panicked
  | .stuck => .stuck

/-- src/parser/expression.rs `variable_or_lookup`: `at_keyword` then, if
`many1(lookup)` succeeds, a `VariableLookup`; a lookup failure (hard or soft)
falls back to the plain `Variable` (`if let Ok` in the source). -/
def variable_or_lookup (cs : List Char) : PR Expression :=
  match at_keyword cs with
  | .ok nm r =>
    (match many1 lookup r with
     | .ok ls r2 => .ok (.variableLookup nm ls) r2
     | .fail => .ok (.variable' nm) r
     | .cut _ => .ok (.variable' nm) r
     | .panicked => .panicked
     | .stuck => .stuck)
  | .fail => .fail
  | .cut k => .cut k
  | .panicked => .panicked
  | .stuck => .stuck

/-- src/parser/expression.rs `property`: `token(preceded(tag("$"), ident))`. -/
def property (cs : List Char) : PR Expression :=
  match token (tag_ident ("$".toList)) cs with
  | .ok nm r => .ok (.property nm) r
  | .fail => .fail
  | .cut k => .cut k
  | .panicked => .panicked
  | .stuck => .stuck

/-- src/parser/expression.rs `numeric_value`: `token(numeric)`. -/
def numeric_value (cs : List Char) : PR Expression :=
  match token numeric cs with
  | .ok vu r => .ok (.numeric vu.1 vu.2) r
  | .fail => .fail
  | .cut k => .cut k
  | .panicked => .panicked
  | .stuck => .stuck

/-- src/parser/expression.rs `ident_value`: `token(ident)`. -/
def ident_value (cs : List Char) : PR Expression :=
  match token ident cs with
  | .ok nm r => .ok (.ident nm) r
  | .fail => .fail
  | .cut k => .cut k
  | .panicked => .panicked
  | .stuck => .stuck

/-- The balanced-brace scan behind `block_of_items`: collect until the `}`
matching the already-consumed `{`. -/
def brace_scan : Nat → Nat → List Char → List Char → PR (List Char)
  | 0, _, _, _ => .stuck
  | _ + 1, _, _, [] => .fail
  | fuel + 1, depth, acc, c :: rest =>
    if c = '\x7d' then
      if depth = 0 then .ok acc.reverse rest
      else brace_scan fuel (depth - 1) (c :: acc) rest
    else if c = '\x7b' then brace_scan fuel (depth + 1) (c :: acc) rest
    else brace_scan fuel depth (c :: acc) rest

/-- Modelled from the spec: the missing `block_of_items` — junk, `{`, then a
balanced-brace block, returned raw (its item structure is outside the
claims). -/
def block_of_items : List Char → PR (List Char) :=
  token fun cs =>
    match cs with
    | '\x7b' :: rest => brace_scan (rest.length + 1) 0 [] rest
    | _ => .fail

/-- src/parser/expression.rs `detached_ruleset`. -/
def detached_ruleset (cs : List Char) : PR Expression :=
  match block_of_items cs with
  | .ok raw r => .ok (.detachedRuleset raw) r
  | .fail => .fail
  | .cut k => .cut k
  | .panicked => .panicked
  | .stuck => .stuck

/-- One element of `function_args`: `alt((detached_ruleset,
comma_separated_arg_value))`. -/
def func_arg (simpleF : List Char → PR Expression) (cs : List Char) :
    PR Expression :=
  (detached_ruleset cs).orElse fun _ => comma_separated_arg_value simpleF cs

/-- src/parser/expression.rs `function_args`. -/
def function_args (simpleF : List Char → PR Expression) :
    List Char → PR Expression :=
  semicolon_list (comma_list (func_arg simpleF))

/-- src/parser/expression.rs `function_call`: `ident`, `(`, then
`cut(terminated(function_args, symbol(")")))`. -/
def function_call (simpleF : List Char → PR Expression) (cs : List Char) :
    PR Expression :=
  match ident cs with
  | .ok nm r1 =>
    (match symbol ("(".toList) r1 with
     | .ok _ r2 =>
       (match function_args simpleF r2 with
        | .ok args r3 =>
          (match symbol (")".toList) r3 with
           | .ok _ r4 => .ok (.functionCall nm args) r4
           | .fail => .cut .other
           | .cut k => .cut k
           | .panicked => .panicked
           | .stuck => .stuck)
        | .fail => .cut .other
        | .cut k => .cut k
        | .panicked => .panicked
        | .stuck => .stuck)
     | .fail => .fail
     | .cut k => .cut k
     | .panicked => .panicked
     | .stuck => .stuck)
  | .fail => .fail
  | .cut k => .cut k
  | .panicked => .panicked
  | .stuck => .stuck

/-- src/parser/mixin.rs `mixin_simple_selector`. -/
def mixin_simple_selector (cs : List Char) : PR SimpleSelector :=
  (id_selector cs).orElse fun _ => class_selector cs

/-- src/parser/mixin.rs `mixin_combinator`: `value((), parse(opt(symbol(">"))))`. -/
def mixin_combinator (cs : List Char) : PR Unit :=
  match parse (fun cs2 =>
      match symbol (">".toList) cs2 with
      | .ok _ r => .ok () r
      | .fail => .ok () cs2
      | .cut k => .cut k
      | .panicked => .panicked
      | .stuck => .stuck) cs with
  | .ok _ r => .ok () r
  | .fail => .fail
  | .cut k => .cut k
  | .panicked => .panicked
  | .stuck => .stuck

/-- src/parser/mixin.rs `mixin_selector`: a first selector, then
`token(fold_many0(preceded(mixin_combinator, mixin_simple_selector)))`. -/
def mixin_selector (cs : List Char) : PR (List SimpleSelector) :=
  match token mixin_simple_selector cs with
  | .ok first r =>
    token (fun cs2 =>
      fold_many0
        (fun cs3 =>
          match mixin_combinator cs3 with
          | .ok _ r3 => mixin_simple_selector r3
          | .fail => .fail
          | .cut k => .cut k
          | .panicked => .panicked
          | .stuck => .stuck)
        (fun acc s => acc ++ [s]) (cs2.length + 1) [first] cs2) r
  | .fail => .fail
  | .cut k => .cut k
  | .panicked => .panicked
  | .stuck => .stuck

/-- The collection loop of src/parser/mixin.rs `to_semicolon_separated`:
the remaining arguments must all be literals. -/
def to_semicolon_separated_go :
    List MixinArgument → List Expression → Except (List Char) (List Expression)
  | [], values => .ok values
  | .literal v :: rest, values => to_semicolon_separated_go rest (values ++ [v])
  | .variable' _ _ :: _, _ =>
    .error (("Cannot mix comma-separated and semicolon-separated arguments").toList)
  | .variadic _ :: _, _ =>
    .error (("Variadic arguments must be the last argument").toList)

/-- src/parser/mixin.rs `to_semicolon_separated`: fold all comma-collected
arguments into one (the first slot's name is kept; the values become a
`CommaList`). -/
def to_semicolon_separated : List MixinArgument → Except (List Char) MixinArgument
  | [] => .error (("No arguments provided").toList)
  | .variable' nm v :: rest =>
    (match to_semicolon_separated_go rest (match v with
        | some x => [x]
        | none => []) with
     | .ok values =>
       .ok (.variable' nm (if values.isEmpty then none else some (.commaList values)))
     | .error e => .error e)
  | .literal v :: rest =>
    (match to_semicolon_separated_go rest [v] with
     | .ok values => .ok (.literal (.commaList values))
     | .error e => .error e)
  | .variadic _ :: _ =>
    .error (("Variadic arguments must be the last argument").toList)

/-- The committed value alternative inside `mixin_arguments`:
`cut(alt((detached_ruleset, <separator-mode arg value>)))`. -/
def mixin_arg_value (simpleF : List Char → PR Expression) (semi : Bool)
    (cs : List Char) : PR Expression :=
  match (detached_ruleset cs).orElse (fun _ =>
      if semi then semicolon_separated_arg_value simpleF cs
      else comma_separated_arg_value simpleF cs) with
  | .ok v r => .ok v r
  | .fail => .cut .other
  | .cut k => .cut k
  | .panicked => .panicked
  | .stuck => .stuck

/-- The loop of src/parser/mixin.rs `mixin_arguments` (`semi` is the current
separator mode).  Soft and hard parse errors of the name/value attempts are
swallowed (`.ok()` in the source); panic and divergence propagate. -/
def mixin_arguments_go (simpleF : List Char → PR Expression) :
    Nat → List MixinArgument → Bool → List Char → PR (List MixinArgument)
  | 0, _, _, _ => .stuck
  | fuel + 1, args, semi, input =>
    match token (tag_ident ("@".toList)) input with
    | .panicked => .panicked
    | .stuck => .stuck
    | nameRes =>
      let nameAndRest : Option (List Char) × List Char :=
        match nameRes with
        | .ok nm r => (some nm, r)
        | _ => (none, input)
      match token (tag ("...".toList)) nameAndRest.2 with
      | .panicked => .panicked
      | .stuck => .stuck
      | .ok _ r2 => .ok (args ++ [.variadic nameAndRest.1]) r2
      | _ =>
        match (match nameAndRest.1 with
            | some _ =>
              (match token (tag (":".toList)) nameAndRest.2 with
               | .ok _ rc => mixin_arg_value simpleF semi rc
               | .fail => .fail
               | .cut k => .cut k
               | .panicked => .panicked
               | .stuck => .stuck)
            | none => mixin_arg_value simpleF semi nameAndRest.2) with
        | .panicked => .panicked
        | .stuck => .stuck
        | valueRes =>
          let valueAndRest : Option Expression × List Char :=
            match valueRes with
            | .ok v r => (some v, r)
            | _ => (none, nameAndRest.2)
          match nameAndRest.1, valueAndRest.1 with
          | none, none => .ok args nameAndRest.2
          | nm?, v? =>
            let args1 := match nm?, v? with
              | some nm, v => args ++ [.variable' nm v]
              | none, some v => args ++ [.literal v]
              | none, none => args
            if semi then
              match token (tag (";".toList)) valueAndRest.2 with
              | .ok _ r => mixin_arguments_go simpleF fuel args1 true r
              | .panicked => .panicked
              | .stuck => .stuck
              | _ => .ok args1 valueAndRest.2
            else
              match token (tag (",".toList)) valueAndRest.2 with
              | .ok _ r => mixin_arguments_go simpleF fuel args1 false r
              | .panicked => .panicked
              | .stuck => .stuck
              | _ =>
                match token (tag (";".toList)) valueAndRest.2 with
                | .ok _ r =>
                  (match to_semicolon_separated args1 with
                   | .ok arg => mixin_arguments_go simpleF fuel [arg] true r
                   | .error _ => .fail)
                | .panicked => .panicked
                | .stuck => .stuck
                | _ => .ok args1 valueAndRest.2

/-- src/parser/mixin.rs `mixin_arguments`: the loop starts in comma mode. -/
def mixin_arguments (simpleF : List Char → PR Expression) (cs : List Char) :
    PR (List MixinArgument) :=
  mixin_arguments_go simpleF (cs.length + 1) [] false cs

/-- The `TryFrom<MixinArgument> for MixinCallArgument` impl of
src/parser/mixin.rs. -/
def mixin_call_arg_of : MixinArgument → Except Unit MixinCallArgument
  | .variable' nm (some v) => .ok (.mk (some nm) v)
  | .variable' nm none => .ok (.mk none (.variable' nm))
  | .literal v => .ok (.mk none v)
  | .variadic _ => .error ()

def collect_call_args : List MixinArgument → Except Unit (List MixinCallArgument)
  | [] => .ok []
  | a :: rest =>
    match mixin_call_arg_of a with
    | .ok x =>
      (match collect_call_args rest with
       | .ok xs => .ok (x :: xs)
       | .error e => .error e)
    | .error e => .error e

/-- src/parser/mixin.rs `mixin_call_arguments`: `map_res` over the generic
arguments. -/
def mixin_call_arguments (simpleF : List Char → PR Expression)
    (cs : List Char) : PR (List MixinCallArgument) :=
  match mixin_arguments simpleF cs with
  | .ok args r =>
    (match collect_call_args args with
     | .ok xs => .ok xs r
     | .error _ => .fail)
  | .fail => .fail
  | .cut k => .cut k
  | .panicked => .panicked
  | .stuck => .stuck

/-- src/parser/mixin.rs `mixin_call`. -/
def mixin_call (simpleF : List Char → PR Expression) (cs : List Char) :
    PR MixinCall :=
  match mixin_selector cs with
  | .ok sel r1 =>
    (match symbol ("(".toList) r1 with
     | .ok _ r2 =>
       (match mixin_call_arguments simpleF r2 with
        | .ok args r3 =>
          (match symbol (")".toList) r3 with
           | .ok _ r4 => .ok (.mk sel args) r4
           | .fail => .fail
           | .cut k => .cut k
           | .panicked => .panicked
           | .stuck => .stuck)
        | .fail => .fail
        | .cut k => .cut k
        | .panicked => .panicked
        | .stuck => .stuck)
     | .fail => .fail
     | .cut k => .cut k
     | .panicked => .panicked
     | .stuck => .stuck)
  | .fail => .fail
  | .cut k => .cut k
  | .panicked => .panicked
  | .stuck => .stuck

/-- src/parser/mixin.rs `mixin_call_expression`. -/
def mixin_call_expression (simpleF : List Char → PR Expression)
    (cs : List Char) : PR Expression :=
  match mixin_call simpleF cs with
  | .ok mc r => .ok (.mixinCall mc []) r
  | .fail => .fail
  | .cut k => .cut k
  | .panicked => .panicked
  | .stuck => .stuck

/-- src/parser/expression.rs `simple_expression`: the atom alternatives in
source order.  This is the recursive knot of the grammar; the fuel bounds the
nesting depth (parenthesized sub-expressions, function and mixin arguments). -/
def simple_expression : Nat → List Char → PR Expression
  | 0, _ => .stuck
  | fuel + 1, cs =>
    (numeric_value cs).orElse fun _ =>
    (string '"' cs).orElse fun _ =>
    (string '\'' cs).orElse fun _ =>
    (variable_or_lookup cs).orElse fun _ =>
    (property cs).orElse fun _ =>
    (function_call (simple_expression fuel) cs).orElse fun _ =>
    (mixin_call_expression (simple_expression fuel) cs).orElse fun _ =>
    (ident_value cs).orElse fun _ =>
    sub (logical_operation (simple_expression fuel)) cs

/-- src/parser/expression.rs `declaration_value` at nesting fuel `fuel`. -/
def declaration_value (fuel : Nat) : List Char → PR Expression :=
  comma_list (space_list (sum_operation (simple_expression fuel)))

/-- src/parser/expression.rs `boolean_expression` (= `logical_operation`). -/
def boolean_expression (fuel : Nat) : List Char → PR Expression :=
  logical_operation (simple_expression fuel)

/-- src/parser/expression.rs `variable_declaration_value`. -/
def variable_declaration_value (fuel : Nat) (cs : List Char) : PR Expression :=
  (detached_ruleset cs).orElse fun _ => declaration_value fuel cs

/-- `mixin_arguments` with the expression nesting fuel supplied. -/
def mixin_argumentsF (fuel : Nat) : List Char → PR (List MixinArgument) :=
  mixin_arguments (simple_expression fuel)


/-! ## Theorems -/

theorem splitAtChar_some (q : Char) :
    ∀ (l body after : List Char), splitAtChar q l = (body, some after) →
      l = body ++ q :: after ∧ ∀ c ∈ body, c ≠ q
  | [], body, after => by
    intro h
    simp [splitAtChar] at h
  | c :: rest, body, after => by
    intro h
    simp only [splitAtChar] at h
    by_cases hc : c = q
    · rw [if_pos hc] at h
      rw [Prod.mk.injEq] at h
      obtain ⟨hb, ha⟩ := h
      injection ha with ha
      subst hb
      subst ha
      simp [hc]
    · rw [if_neg hc] at h
      rcases hsp : splitAtChar q rest with ⟨body2, after2⟩
      rw [hsp] at h
      dsimp only at h
      rw [Prod.mk.injEq] at h
      obtain ⟨hb, ha⟩ := h
      rcases after2 with _ | after2
      · cases ha
      · injection ha with ha
        obtain ⟨hr, hnotin⟩ := splitAtChar_some q rest body2 after2 hsp
        subst hb
        subst ha
        refine ⟨by simp [hr], ?_⟩
        intro x hx
        rcases List.mem_cons.mp hx with hx | hx
        · subst hx
          exact hc
        · exact hnotin x hx

theorem splitAtChar_none (q : Char) :
    ∀ (l body : List Char), splitAtChar q l = (body, none) →
      body = l ∧ ∀ c ∈ l, c ≠ q
  | [], body => by
    intro h
    simp only [splitAtChar] at h
    rw [Prod.mk.injEq] at h
    simp [h.1.symm]
  | c :: rest, body => by
    intro h
    simp only [splitAtChar] at h
    by_cases hc : c = q
    · rw [if_pos hc] at h
      rw [Prod.mk.injEq] at h
      cases h.2
    · rw [if_neg hc] at h
      rcases hsp : splitAtChar q rest with ⟨body2, after2⟩
      rw [hsp] at h
      dsimp only at h
      rw [Prod.mk.injEq] at h
      obtain ⟨hb, ha⟩ := h
      rcases after2 with _ | after2
      · subst hb
        obtain ⟨hr, hnotin⟩ := splitAtChar_none q rest body2 hsp
        refine ⟨by simp [hr], ?_⟩
        intro x hx
        rcases List.mem_cons.mp hx with hx | hx
        · subst hx
          exact hc
        · exact hnotin x hx
      · cases ha

theorem splitAtStarSlash_some (l : List Char) :
    ∀ (body after : List Char), splitAtStarSlash l = (body, some after) →
      l = body ++ '*' :: '/' :: after := by
  induction l with
  | nil => intro body after h; simp [splitAtStarSlash] at h
  | cons c rest ih =>
    intro body after h
    simp only [splitAtStarSlash] at h
    split at h
    · next hcs =>
      simp only [Bool.and_eq_true, decide_eq_true_eq] at hcs
      obtain ⟨hc, hh⟩ := hcs
      cases h
      rcases rest with _ | ⟨r0, rt⟩
      · simp at hh
      · simp at hh
        simp [hc, hh]
    · rcases hsp : splitAtStarSlash rest with ⟨body2, after2⟩
      rw [hsp] at h
      dsimp only at h
      rw [Prod.mk.injEq] at h
      obtain ⟨hb, ha⟩ := h
      rcases after2 with _ | after2
      · cases ha
      · injection ha with ha
        have hr := ih body2 after2 hsp
        subst hb
        subst ha
        simp [hr]

theorem splitAtStarSlash_of_no (l : List Char) (h : hasStarSlash l = false) :
    splitAtStarSlash l = (l, none) := by
  induction l with
  | nil => simp [splitAtStarSlash]
  | cons c rest ih =>
    simp only [hasStarSlash, Bool.or_eq_false_iff] at h
    simp [splitAtStarSlash, h.1, ih h.2]

theorem takeWhile_length_le {p : Char → Bool} {l : List Char} :
    (l.takeWhile p).length ≤ l.length :=
  (List.takeWhile_sublist p).length_le

theorem PR.orElse_ok {α : Type} {a : PR α} {f : Unit → PR α} {v : α} {r : List Char}
    (h : a.orElse f = .ok v r) : a = .ok v r ∨ (a = .fail ∧ f () = .ok v r) := by
  cases a <;> simp_all [PR.orElse]

theorem whitespaceTok_ok {cs : List Char} {v : Token} {r : List Char}
    (h : whitespaceTok cs = .ok v r) : v = .whitespace ∧ r.length < cs.length := by
  simp only [whitespaceTok] at h
  split at h
  · cases h
  · next hne =>
    cases h
    have h1 : cs.takeWhile rustIsWhitespace ≠ [] := by
      intro hx
      rw [hx] at hne
      simp at hne
    have h2 : (cs.takeWhile rustIsWhitespace).length ≤ cs.length := takeWhile_length_le
    have h3 : 1 ≤ (cs.takeWhile rustIsWhitespace).length := by
      rcases hx : cs.takeWhile rustIsWhitespace with _ | ⟨a, l⟩
      · exact absurd hx h1
      · simp
    refine ⟨rfl, ?_⟩
    rw [List.length_drop]
    omega

theorem lineCommentTok_ok {cs : List Char} {v : Token} {r : List Char}
    (h : lineCommentTok cs = .ok v r) :
    (∃ s, v = .comment s) ∧ r.length < cs.length := by
  unfold lineCommentTok at h
  split at h
  · next rest =>
    cases h
    refine ⟨⟨_, rfl⟩, ?_⟩
    have hsfx : (rest.dropWhile fun c => (c ≠ '\n' : Bool)) <:+ rest :=
      List.dropWhile_suffix _
    have := hsfx.length_le
    simp only [List.length_cons]
    omega
  · cases h

theorem blockCommentTokW_ok {cs : List Char} {v : Token} {r : List Char}
    (h : blockCommentTokW cs = .ok v r) :
    (∃ s, v = .comment s) ∧ r.length < cs.length := by
  unfold blockCommentTokW at h
  split at h
  · next rest =>
    rcases hsp : splitAtStarSlash rest with ⟨body, after⟩
    rw [hsp] at h
    rcases after with _ | after
    · cases h
    · cases h
      refine ⟨⟨_, rfl⟩, ?_⟩
      have hr := splitAtStarSlash_some rest body r hsp
      have := congrArg List.length hr
      simp only [List.length_cons, List.length_append] at this ⊢
      omega
  · cases h

theorem identTokW_ok {cs : List Char} {v : Token} {r : List Char}
    (h : identTokW cs = .ok v r) :
    (∃ s, v = .ident s) ∧ r.length < cs.length := by
  simp only [identTokW] at h
  split at h
  · split at h
    · cases h
    · next hne =>
      cases h
      have h2 : (cs.takeWhile isName).length ≤ cs.length := takeWhile_length_le
      have h3 : 1 ≤ (cs.takeWhile isName).length := by
        rcases hx : cs.takeWhile isName with _ | ⟨a, l⟩
        · rw [hx] at hne
          simp at hne
        · simp
      refine ⟨⟨_, rfl⟩, ?_⟩
      rw [List.length_drop]
      omega
  · cases h

theorem hashTokW_ok {cs : List Char} {v : Token} {r : List Char}
    (h : hashTokW cs = .ok v r) :
    (∃ s, v = .hash s ∧ s ≠ []) ∧ r.length < cs.length := by
  unfold hashTokW at h
  split at h
  · next rest =>
    simp only at h
    split at h
    · cases h
    · next hne =>
      cases h
      have h2 : (rest.takeWhile isName).length ≤ rest.length := takeWhile_length_le
      refine ⟨⟨_, rfl, ?_⟩, ?_⟩
      · intro hx
        rw [hx] at hne
        simp at hne
      · rw [List.length_drop]
        simp only [List.length_cons]
        omega
  · cases h

theorem stringTokW_ok {cs : List Char} {v : Token} {r : List Char}
    (h : stringTokW cs = .ok v r) :
    (∃ s, v = .string s) ∧ r.length < cs.length := by
  unfold stringTokW at h
  split at h
  · next c rest =>
    split at h
    · rcases hsp : splitAtChar c rest with ⟨body, after⟩
      rw [hsp] at h
      rcases after with _ | after
      · cases h
      · cases h
        refine ⟨⟨_, rfl⟩, ?_⟩
        have hr := (splitAtChar_some c rest body r hsp).1
        have := congrArg List.length hr
        simp only [List.length_cons, List.length_append] at this ⊢
        omega
    · cases h
  · cases h

theorem decDigitsW_ok {cs : List Char} {v : Nat × Nat} {r : List Char}
    (h : decDigitsW cs = .ok v r) : r.length < cs.length := by
  simp only [decDigitsW] at h
  split at h
  · cases h
  · next hne =>
    split at h
    · cases h
      have h2 : (cs.takeWhile isDigitByte).length ≤ cs.length := takeWhile_length_le
      have h3 : 1 ≤ (cs.takeWhile isDigitByte).length := by
        rcases hx : cs.takeWhile isDigitByte with _ | ⟨a, l⟩
        · rw [hx] at hne
          simp at hne
        · simp
      rw [List.length_drop]
      omega
    · cases h

theorem decDigitsC_ok {cs : List Char} {v : Nat × Nat} {r : List Char}
    (h : decDigitsC cs = .ok v r) : r.length < cs.length := by
  simp only [decDigitsC] at h
  split at h
  · cases h
  · next hne =>
    split at h
    · cases h
      have h2 : (cs.takeWhile isAsciiDigit).length ≤ cs.length := takeWhile_length_le
      have h3 : 1 ≤ (cs.takeWhile isAsciiDigit).length := by
        rcases hx : cs.takeWhile isAsciiDigit with _ | ⟨a, l⟩
        · rw [hx] at hne
          simp at hne
        · simp
      rw [List.length_drop]
      omega
    · cases h

theorem optSign_length {cs : List Char} : (optSign cs).2.length ≤ cs.length := by
  unfold optSign
  split <;> simp

theorem numberTail_ok {digitsFn : List Char → PR (Nat × Nat)}
    (hdf : ∀ {cs v r}, digitsFn cs = .ok v r → r.length < cs.length)
    {s : Int} {i f d : Nat} {cs : List Char} {v : Token} {r : List Char}
    (h : numberTail digitsFn s i f d cs = .ok v r) :
    (∃ x, v = .number x) ∧ r.length ≤ cs.length := by
  simp only [numberTail] at h
  split at h
  · next c cs1 =>
    split at h
    · rcases hos : optSign cs1 with ⟨t, cs2⟩
      rw [hos] at h
      dsimp only at h
      rcases hdg : digitsFn cs2 with ⟨e, cs3⟩ | _ | _ | _ | _ <;> rw [hdg] at h <;> cases h
      · have h1 := hdf hdg
        have h2 : cs2.length ≤ cs1.length := by
          have := @optSign_length cs1
          rw [hos] at this
          exact this
        refine ⟨⟨_, rfl⟩, ?_⟩
        simp only [List.length_cons]
        omega
      · exact ⟨⟨_, rfl⟩, by simp⟩
    · cases h
      exact ⟨⟨_, rfl⟩, by simp⟩
  · cases h
    exact ⟨⟨_, rfl⟩, by simp⟩

theorem numberFrac_ok {digitsFn : List Char → PR (Nat × Nat)}
    (hdf : ∀ {cs v r}, digitsFn cs = .ok v r → r.length < cs.length)
    {s : Int} {i : Nat} {cs2 : List Char} {v : Token} {r : List Char}
    (h : numberFrac digitsFn s i cs2 = .ok v r) :
    (∃ x, v = .number x) ∧ r.length ≤ cs2.length := by
  unfold numberFrac at h
  split at h
  · next cs3 =>
    rcases hdg2 : digitsFn cs3 with ⟨⟨f, d⟩, cs4⟩ | _ | _ | _ | _ <;> rw [hdg2] at h
    · have hl4 : cs4.length < cs3.length := hdf hdg2
      obtain ⟨hs, hl⟩ := numberTail_ok hdf h
      refine ⟨hs, ?_⟩
      simp only [List.length_cons]
      omega
    · obtain ⟨hs, hl⟩ := numberTail_ok hdf h
      refine ⟨hs, ?_⟩
      simp only [List.length_cons] at hl
      simp only [List.length_cons]
      omega
    · cases h
    · cases h
    · cases h
  · obtain ⟨hs, hl⟩ := numberTail_ok hdf h
    exact ⟨hs, hl⟩

theorem numberNoInt_ok {digitsFn : List Char → PR (Nat × Nat)}
    (hdf : ∀ {cs v r}, digitsFn cs = .ok v r → r.length < cs.length)
    {s : Int} {cs1 : List Char} {v : Token} {r : List Char}
    (h : numberNoInt digitsFn s cs1 = .ok v r) :
    (∃ x, v = .number x) ∧ r.length < cs1.length := by
  unfold numberNoInt at h
  split at h
  · next cs3 =>
    rcases hdg2 : digitsFn cs3 with ⟨⟨f, d⟩, cs4⟩ | _ | _ | _ | _ <;> rw [hdg2] at h
    · have hl4 : cs4.length < cs3.length := hdf hdg2
      obtain ⟨hs, hl⟩ := numberTail_ok hdf h
      refine ⟨hs, ?_⟩
      simp only [List.length_cons]
      omega
    · cases h
    · cases h
    · cases h
    · cases h
  · cases h

theorem numberTok_ok {digitsFn : List Char → PR (Nat × Nat)}
    (hdf : ∀ {cs v r}, digitsFn cs = .ok v r → r.length < cs.length)
    {cs : List Char} {v : Token} {r : List Char}
    (h : numberTok digitsFn cs = .ok v r) :
    (∃ x, v = .number x) ∧ r.length < cs.length := by
  simp only [numberTok] at h
  rcases hos : optSign cs with ⟨s, cs1⟩
  rw [hos] at h
  dsimp only at h
  have hlen1 : cs1.length ≤ cs.length := by
    have := @optSign_length cs
    rw [hos] at this
    exact this
  rcases hdg : digitsFn cs1 with ⟨⟨i, d0⟩, cs2⟩ | _ | _ | _ | _ <;> rw [hdg] at h
  · have hl2 : cs2.length < cs1.length := hdf hdg
    obtain ⟨hs, hl⟩ := numberFrac_ok hdf h
    exact ⟨hs, by omega⟩
  · obtain ⟨hs, hl⟩ := numberNoInt_ok hdf h
    exact ⟨hs, by omega⟩
  · cases h
  · cases h
  · cases h

theorem anySymbolTok_ok {cs : List Char} {v : Token} {r : List Char}
    (h : anySymbolTok cs = .ok v r) :
    (∃ c, v = .symbol c) ∧ r.length < cs.length := by
  unfold anySymbolTok at h
  split at h
  · cases h
    exact ⟨⟨_, rfl⟩, by simp⟩
  · cases h

/-- Any successful winnow `token` consumes at least one character, and a
`Hash` token it produces has nonempty text. -/
theorem tokenW_ok {cs : List Char} {t : Token} {r : List Char}
    (h : tokenW cs = .ok t r) :
    r.length < cs.length ∧ ∀ s, t = .hash s → s ≠ [] := by
  unfold tokenW at h
  rcases PR.orElse_ok h with h1 | ⟨-, h⟩
  · obtain ⟨hv, hl⟩ := whitespaceTok_ok h1
    exact ⟨hl, by intro s hs; rw [hv] at hs; cases hs⟩
  rcases PR.orElse_ok h with h1 | ⟨-, h⟩
  · obtain ⟨⟨s0, hv⟩, hl⟩ := lineCommentTok_ok h1
    exact ⟨hl, by intro s hs; rw [hv] at hs; cases hs⟩
  rcases PR.orElse_ok h with h1 | ⟨-, h⟩
  · obtain ⟨⟨s0, hv⟩, hl⟩ := blockCommentTokW_ok h1
    exact ⟨hl, by intro s hs; rw [hv] at hs; cases hs⟩
  rcases PR.orElse_ok h with h1 | ⟨-, h⟩
  · obtain ⟨⟨s0, hv⟩, hl⟩ := identTokW_ok h1
    exact ⟨hl, by intro s hs; rw [hv] at hs; cases hs⟩
  rcases PR.orElse_ok h with h1 | ⟨-, h⟩
  · obtain ⟨⟨s0, hv, hne⟩, hl⟩ := hashTokW_ok h1
    refine ⟨hl, ?_⟩
    intro s hs
    rw [hv] at hs
    cases hs
    exact hne
  rcases PR.orElse_ok h with h1 | ⟨-, h⟩
  · obtain ⟨⟨s0, hv⟩, hl⟩ := stringTokW_ok h1
    exact ⟨hl, by intro s hs; rw [hv] at hs; cases hs⟩
  rcases PR.orElse_ok h with h1 | ⟨-, h⟩
  · obtain ⟨⟨x, hv⟩, hl⟩ := numberTok_ok (fun h => decDigitsW_ok h) h1
    exact ⟨hl, by intro s hs; rw [hv] at hs; cases hs⟩
  · obtain ⟨⟨c0, hv⟩, hl⟩ := anySymbolTok_ok h
    exact ⟨hl, by intro s hs; rw [hv] at hs; cases hs⟩

mutual

theorem balStack_flatTT (tt : WTT) :
    ∀ (rest : List FlatItem) (stk : List Delim),
      balStack (flatTT tt ++ rest) stk = balStack rest stk := by
  cases tt with
  | token t =>
    intro rest stk
    simp [flatTT, balStack]
  | delim d children =>
    intro rest stk
    simp only [flatTT, List.cons_append, List.append_assoc]
    rw [balStack]
    rw [balStack_flatListTT children]
    simp [balStack]

theorem balStack_flatListTT (ts : List WTT) :
    ∀ (rest : List FlatItem) (stk : List Delim),
      balStack (flatListTT ts ++ rest) stk = balStack rest stk := by
  cases ts with
  | nil =>
    intro rest stk
    simp [flatListTT]
  | cons t ts2 =>
    intro rest stk
    simp only [flatListTT, List.append_assoc]
    rw [balStack_flatTT t, balStack_flatListTT ts2]

end
theorem isBalanced_flatListTT (ts : List WTT) : isBalanced (flatListTT ts) = true := by
  have h := balStack_flatListTT ts [] []
  simp only [List.append_nil] at h
  rw [isBalanced, h]
  rfl

/-- Consumption facts for the winnow tree lexer, by strong induction on the
input length: a successful `token_tree` consumes at least one character, and
`repeat(0.., token_tree)` never produces a longer remainder. -/
theorem treeConsumeW (n : Nat) :
    (∀ (cs : List Char) (tt : WTT) (rest : List Char), cs.length ≤ n →
      tokenTreeW cs = .ok tt rest → rest.length < cs.length) ∧
    (∀ (cs : List Char) (ts : List WTT) (rest : List Char), cs.length ≤ n →
      repW cs = .ok ts rest → rest.length ≤ cs.length) := by
  induction n with
  | zero =>
    constructor
    · intro cs tt rest hn h
      have hcs : cs = [] := List.length_eq_zero.mp (by omega)
      subst hcs
      rw [tokenTreeW.eq_def] at h
      simp at h
    · intro cs ts rest hn h
      have hcs : cs = [] := List.length_eq_zero.mp (by omega)
      subst hcs
      have hrw : repW ([] : List Char) = .ok [] [] := by
        rw [repW.eq_def, tokenTreeW.eq_def]
      rw [hrw] at h
      cases h
      simp
  | succ n ih =>
    have htt : ∀ (cs : List Char) (tt : WTT) (rest : List Char), cs.length ≤ n + 1 →
        tokenTreeW cs = .ok tt rest → rest.length < cs.length := by
      intro cs tt rest hn h
      rw [tokenTreeW.eq_def] at h
      rcases cs with _ | ⟨c, rest0⟩
      · simp at h
      · dsimp only at h
        rcases hcd : charDelim c with _ | ⟨d, b⟩ <;> rw [hcd] at h <;> (try dsimp only at h)
        · rcases htk : tokenW (c :: rest0) with ⟨t, rest2⟩ | _ | _ | _ | _ <;>
            rw [htk] at h <;> (try dsimp only at h) <;> cases h
          exact (tokenW_ok htk).1
        · rcases b with _ | _ <;> (try dsimp only at h)
          · cases h
          · rw [treeTailW.eq_def] at h
            rcases hr : repW rest0 with ⟨tts, rest1⟩ | _ | _ | _ | _ <;> rw [hr] at h <;>
              (try dsimp only at h)
            · have hr1 : rest1.length ≤ rest0.length := by
                refine ih.2 rest0 tts rest1 ?_ hr
                simp only [List.length_cons] at hn
                omega
              rcases rest1 with _ | ⟨c2, rest2⟩
              · simp at h
              · by_cases hcl : c2 = d.closeChar
                · simp [hcl] at h
                  obtain ⟨-, hrest⟩ := h
                  subst hrest
                  simp only [List.length_cons] at hr1 ⊢
                  omega
                · simp [hcl] at h
            · cases h
            · cases h
            · cases h
            · cases h
    refine ⟨htt, ?_⟩
    intro cs ts rest hn h
    rw [repW.eq_def] at h
    rcases htk : tokenTreeW cs with ⟨tt, rest1⟩ | _ | _ | _ | _ <;> rw [htk] at h <;>
      (try dsimp only at h)
    · have hlt : rest1.length < cs.length := htt cs tt rest1 hn htk
      rw [dif_pos hlt] at h
      rcases hr : repW rest1 with ⟨tts, rest2⟩ | _ | _ | _ | _ <;> rw [hr] at h <;> cases h
      have : rest.length ≤ rest1.length := by
        refine ih.2 rest1 tts rest ?_ hr
        omega
      omega
    · cases h
      omega
    · cases h
    · cases h
    · cases h

theorem FlatRes.push_push (a b : List FlatItem) (r : FlatRes) :
    FlatRes.push a (FlatRes.push b r) = FlatRes.push (a ++ b) r := by
  cases r <;> simp [FlatRes.push]

theorem FlatRes.push_nil (r : FlatRes) : FlatRes.push [] r = r := by
  cases r <;> simp [FlatRes.push]

theorem charDelim_close (d : Delim) : charDelim d.closeChar = some (d, false) := by
  cases d <;> rfl

set_option maxHeartbeats 2000000 in
theorem flatLex_opener {c : Char} {d : Delim} (rest : List Char)
    (h : charDelim c = some (d, true)) :
    flatLex (c :: rest) = FlatRes.push [.opener d] (flatLex rest) := by
  rw [flatLex.eq_def]
  dsimp only
  rw [h]

theorem flatLex_closer {c : Char} {d : Delim} (rest : List Char)
    (h : charDelim c = some (d, false)) :
    flatLex (c :: rest) = FlatRes.push [.closer d] (flatLex rest) := by
  rw [flatLex.eq_def]
  dsimp only
  rw [h]

theorem flatLex_tok {c : Char} {rest : List Char} {t : Token} {rest2 : List Char}
    (hcd : charDelim c = none) (htk : tokenW (c :: rest) = .ok t rest2) :
    flatLex (c :: rest) = FlatRes.push [.tok t] (flatLex rest2) := by
  have hl : rest2.length < rest.length + 1 := by
    have := (tokenW_ok htk).1
    simp only [List.length_cons] at this
    omega
  rw [flatLex.eq_def]
  dsimp only
  rw [hcd, htk]
  dsimp only
  rw [dif_pos hl]

/-- The recursive-descent winnow lexer agrees with the flat scan: a
successful `token_tree` (or token-tree repetition) contributes exactly its
flattening to the flat scan of its input. -/
theorem treeFlatW (n : Nat) :
    (∀ (cs : List Char) (tt : WTT) (rest : List Char), cs.length ≤ n →
      tokenTreeW cs = .ok tt rest →
      flatLex cs = FlatRes.push (flatTT tt) (flatLex rest)) ∧
    (∀ (cs : List Char) (ts : List WTT) (rest : List Char), cs.length ≤ n →
      repW cs = .ok ts rest →
      flatLex cs = FlatRes.push (flatListTT ts) (flatLex rest)) := by
  induction n with
  | zero =>
    constructor
    · intro cs tt rest hn h
      have hcs : cs = [] := List.length_eq_zero.mp (by omega)
      subst hcs
      rw [tokenTreeW.eq_def] at h
      simp at h
    · intro cs ts rest hn h
      have hcs : cs = [] := List.length_eq_zero.mp (by omega)
      subst hcs
      have hrw : repW ([] : List Char) = .ok [] [] := by
        rw [repW.eq_def, tokenTreeW.eq_def]
      rw [hrw] at h
      cases h
      simp [flatListTT, FlatRes.push_nil]
  | succ n ih =>
    have htt : ∀ (cs : List Char) (tt : WTT) (rest : List Char), cs.length ≤ n + 1 →
        tokenTreeW cs = .ok tt rest →
        flatLex cs = FlatRes.push (flatTT tt) (flatLex rest) := by
      intro cs tt rest hn h
      rw [tokenTreeW.eq_def] at h
      rcases cs with _ | ⟨c, rest0⟩
      · simp at h
      · dsimp only at h
        rcases hcd : charDelim c with _ | ⟨d, b⟩ <;> rw [hcd] at h <;> (try dsimp only at h)
        · rcases htk : tokenW (c :: rest0) with ⟨t, rest2⟩ | _ | _ | _ | _ <;>
            rw [htk] at h <;> (try dsimp only at h) <;> cases h
          rw [flatLex_tok hcd htk]
          simp [flatTT]
        · rcases b with _ | _ <;> (try dsimp only at h)
          · cases h
          · rw [treeTailW.eq_def] at h
            rcases hr : repW rest0 with ⟨tts, rest1⟩ | _ | _ | _ | _ <;> rw [hr] at h
            · have hr1 : rest1.length ≤ rest0.length := by
                refine (treeConsumeW rest0.length).2 rest0 tts rest1 (le_refl _) hr
              have hflat0 : flatLex rest0 = FlatRes.push (flatListTT tts) (flatLex rest1) := by
                refine ih.2 rest0 tts rest1 ?_ hr
                simp only [List.length_cons] at hn
                omega
              rcases rest1 with _ | ⟨c2, rest2⟩
              · simp at h
              · by_cases hcl : c2 = d.closeChar
                · simp [hcl] at h
                  obtain ⟨htt2, hrest⟩ := h
                  subst hrest
                  subst htt2
                  rw [flatLex_opener rest0 hcd, hflat0]
                  rw [flatLex_closer rest2 (hcl ▸ charDelim_close d)]
                  rw [FlatRes.push_push, FlatRes.push_push]
                  simp [flatTT]
                · simp [hcl] at h
            · cases h
            · cases h
            · cases h
            · cases h
    refine ⟨htt, ?_⟩
    intro cs ts rest hn h
    rw [repW.eq_def] at h
    rcases htk : tokenTreeW cs with ⟨tt, rest1⟩ | _ | _ | _ | _ <;> rw [htk] at h <;>
      (try dsimp only at h)
    · have hlt : rest1.length < cs.length := (treeConsumeW cs.length).1 cs tt rest1 (le_refl _) htk
      rw [dif_pos hlt] at h
      rcases hr : repW rest1 with ⟨tts, rest2⟩ | _ | _ | _ | _ <;> rw [hr] at h <;> cases h
      have hf1 : flatLex cs = FlatRes.push (flatTT tt) (flatLex rest1) :=
        htt cs tt rest1 hn htk
      have hf2 : flatLex rest1 = FlatRes.push (flatListTT tts) (flatLex rest) := by
        refine ih.2 rest1 tts rest ?_ hr
        omega
      rw [hf1, hf2, FlatRes.push_push]
      simp [flatListTT]
    · cases h
      simp [flatListTT, FlatRes.push_nil]
    · cases h
    · cases h
    · cases h

/-- A successful winnow `tokenize` run determines the flat scan: it succeeds
with exactly the flattening of the returned trees, which is balanced. -/
theorem tokenizeW_ok_flat {cs : List Char} {ts : List WTT} {r : List Char}
    (h : tokenizeW cs = .ok ts r) :
    flatLex cs = .ok (flatListTT ts) ∧ isBalanced (flatListTT ts) = true := by
  unfold tokenizeW at h
  rcases hr : repW cs with ⟨ts2, rest2⟩ | _ | _ | _ | _ <;> rw [hr] at h
  · rcases rest2 with _ | ⟨c2, rest3⟩
    · cases h
      have hf := (treeFlatW cs.length).2 cs ts [] (le_refl _) hr
      rw [hf]
      constructor
      · rw [show flatLex [] = .ok [] by rw [flatLex.eq_def]]
        simp [FlatRes.push]
      · exact isBalanced_flatListTT ts
    · cases h
  · cases h
  · cases h
  · cases h
  · cases h

/-- Claim C1: for every input whose flat token scan succeeds but has
unmatched delimiters — a top-level close with no matching open, or an open
whose matching close is missing or mismatched, i.e. the flat item sequence is
unbalanced — the winnow lexer `tokenize` (src/tokenizer.rs) fails and returns
no token-tree sequence.  (A stray top-level close makes `token_tree` fail and
`parse` reject the unconsumed input; a missing or mismatched close trips the
`cut_err` guarding the close delimiter — the spec's StrayClose and
UnmatchedOpen errors.) -/
theorem c1_unmatched_delimiter_fails (cs : List Char) (fs : List FlatItem)
    (h1 : flatLex cs = .ok fs) (h2 : isBalanced fs = false) :
    (tokenizeW cs).isOk = false := by
  rcases hok : tokenizeW cs with ⟨ts, r⟩ | _ | _ | _ | _ <;> try rfl
  exfalso
  obtain ⟨hf, hb⟩ := tokenizeW_ok_flat hok
  rw [h1] at hf
  injection hf with hf
  rw [← hf] at hb
  rw [h2] at hb
  cases hb

/-- Witness for C1 at the concrete input `(]`: the flat scan yields an open
paren and a close bracket, which are unbalanced, and `tokenize` indeed does
not succeed. -/
theorem c1_unmatched_delimiter_fails_witness :
    flatLex ['(', ']'] = .ok [.opener .paren, .closer .bracket] ∧
    isBalanced [.opener .paren, .closer .bracket] = false ∧
    (tokenizeW ['(', ']']).isOk = false := by
  refine ⟨?_, ?_, ?_⟩
  · simp [flatLex.eq_def, charDelim, FlatRes.push]
  · rfl
  · exact c1_unmatched_delimiter_fails ['(', ']'] [.opener .paren, .closer .bracket]
      (by simp [flatLex.eq_def, charDelim, FlatRes.push]) rfl

/-- Claim C2: for every input in which a `"` or `'` quote is opened (at a
token position) and the matching closing quote never occurs before the end of
the input — i.e. the flat token scan hits the unterminated-string hard error —
the winnow lexer `tokenize` (src/tokenizer.rs) fails; it does not succeed
with the stray quote lexed as some other token. -/
theorem c2_unterminated_string_fails (cs : List Char)
    (h : flatLex cs = .cut .unterminatedString) :
    (tokenizeW cs).isOk = false := by
  rcases hok : tokenizeW cs with ⟨ts, r⟩ | _ | _ | _ | _ <;> try rfl
  exfalso
  obtain ⟨hf, -⟩ := tokenizeW_ok_flat hok
  rw [h] at hf
  cases hf

/-- Witness for C2 at the concrete input `"abc` (an opened quote, never
closed): the flat scan reports the unterminated string and `tokenize` does
not succeed. -/
theorem c2_unterminated_string_fails_witness :
    flatLex ['"', 'a', 'b', 'c'] = .cut .unterminatedString ∧
    (tokenizeW ['"', 'a', 'b', 'c']).isOk = false := by
  have h : flatLex ['"', 'a', 'b', 'c'] = .cut .unterminatedString := by
    simp [flatLex.eq_def, charDelim, tokenW, whitespaceTok, lineCommentTok,
      blockCommentTokW, identTokW, hashTokW, stringTokW, numberTokW, numberTok,
      numberFrac, numberNoInt, numberTail, decDigitsW, optSign, anySymbolTok,
      PR.orElse, wouldStartIdentifier, isName, isNameStart, isLetter, isNonAscii,
      isDigitByte, rustIsWhitespace, splitAtChar, splitAtStarSlash, isValidEscape,
      FlatRes.push]
  exact ⟨h, c2_unterminated_string_fails _ h⟩

theorem push_ok {pre : List FlatItem} {r : FlatRes} {fs : List FlatItem}
    (h : FlatRes.push pre r = .ok fs) : ∃ tail, r = .ok tail ∧ fs = pre ++ tail := by
  cases r <;> simp_all [FlatRes.push]

/-- Every token the flat scan emits satisfies `hashOk`: winnow `hash`
requires a nonempty name run. -/
theorem flatLex_tokens_hashOk (n : Nat) :
    ∀ (cs : List Char) (fs : List FlatItem), cs.length ≤ n → flatLex cs = .ok fs →
      ∀ t, FlatItem.tok t ∈ fs → Token.hashOk t = true := by
  induction n with
  | zero =>
    intro cs fs hn h t ht
    have hcs : cs = [] := List.length_eq_zero.mp (by omega)
    subst hcs
    rw [show flatLex [] = .ok [] by rw [flatLex.eq_def]] at h
    cases h
    cases ht
  | succ n ih =>
    intro cs fs hn h t ht
    rcases cs with _ | ⟨c, rest⟩
    · rw [show flatLex [] = .ok [] by rw [flatLex.eq_def]] at h
      cases h
      cases ht
    · rcases hcd : charDelim c with _ | ⟨d, b⟩
      · rcases htk : tokenW (c :: rest) with ⟨t2, rest2⟩ | _ | _ | _ | _
        · rw [flatLex_tok hcd htk] at h
          obtain ⟨tail, htail, rfl⟩ := push_ok h
          rcases List.mem_append.mp ht with hin | hin
          · simp at hin
            subst hin
            rcases ht2 : t with _ | _ | _ | s | _ | _ | _ <;> try rfl
            subst ht2
            simp only [Token.hashOk]
            have := (tokenW_ok htk).2 s rfl
            simp [this]
          · refine ih rest2 tail ?_ htail t hin
            have := (tokenW_ok htk).1
            simp only [List.length_cons] at this hn
            omega
        · rw [flatLex.eq_def] at h
          dsimp only at h
          rw [hcd, htk] at h
          cases h
        · rw [flatLex.eq_def] at h
          dsimp only at h
          rw [hcd, htk] at h
          cases h
        · rw [flatLex.eq_def] at h
          dsimp only at h
          rw [hcd, htk] at h
          cases h
        · rw [flatLex.eq_def] at h
          dsimp only at h
          rw [hcd, htk] at h
          cases h
      · rcases b with _ | _
        · rw [flatLex_closer rest hcd] at h
          obtain ⟨tail, htail, rfl⟩ := push_ok h
          rcases List.mem_append.mp ht with hin | hin
          · simp at hin
          · refine ih rest tail ?_ htail t hin
            simp only [List.length_cons] at hn
            omega
        · rw [flatLex_opener rest hcd] at h
          obtain ⟨tail, htail, rfl⟩ := push_ok h
          rcases List.mem_append.mp ht with hin | hin
          · simp at hin
          · refine ih rest tail ?_ htail t hin
            simp only [List.length_cons] at hn
            omega

/-- Claim C9: the winnow lexer emits a `Hash` token only for `#` followed by
a nonempty identifier-continue run.  Part 1: a `#` whose follower is not an
identifier-continue character (or which ends the input) is lexed as
`Symbol('#')`, never as an empty `Hash`.  Part 2: every token produced by
`token` that is a `Hash` has nonempty text.  Part 3: in any successful
`tokenize` run, every token anywhere in the returned token trees (exhibited
through its flattening) that is a `Hash` has nonempty text. -/
theorem c9_hash_requires_nonempty_name :
    (∀ (c : Char) (cs : List Char), isName c = false →
      tokenW ('#' :: c :: cs) = .ok (.symbol '#') (c :: cs)) ∧
    (tokenW ['#'] = .ok (.symbol '#') []) ∧
    (∀ (cs : List Char) (t : Token) (r : List Char) (s : List Char),
      tokenW cs = .ok t r → t = .hash s → s ≠ []) ∧
    (∀ (cs : List Char) (ts : List WTT) (t : Token),
      tokenizeW cs = .ok ts [] → FlatItem.tok t ∈ flatListTT ts →
        Token.hashOk t = true) := by
  refine ⟨?_, ?_, ?_, ?_⟩
  · intro c cs h
    have hh : hashTokW ('#' :: c :: cs) = .fail := by
      simp [hashTokW, List.takeWhile_cons, h]
    have hw : whitespaceTok ('#' :: c :: cs) = .fail := rfl
    have hl : lineCommentTok ('#' :: c :: cs) = .fail := rfl
    have hb : blockCommentTokW ('#' :: c :: cs) = .fail := rfl
    have hi : identTokW ('#' :: c :: cs) = .fail := rfl
    have hs : stringTokW ('#' :: c :: cs) = .fail := rfl
    have hn : numberTokW ('#' :: c :: cs) = .fail := rfl
    simp [tokenW, PR.orElse, hw, hl, hb, hi, hh, hs, hn, anySymbolTok]
  · rfl
  · intro cs t r s h ht
    subst ht
    exact (tokenW_ok h).2 s rfl
  · intro cs ts t h hin
    obtain ⟨hf, -⟩ := tokenizeW_ok_flat h
    exact flatLex_tokens_hashOk cs.length cs (flatListTT ts) (le_refl _) hf t hin

/-- Witness for C9 at concrete inputs: `#` before a space becomes
`Symbol('#')`, and `#0ff` lexes as a (nonempty) hash token. -/
theorem c9_hash_requires_nonempty_name_witness :
    tokenW ['#', ' ', 'x'] = .ok (.symbol '#') [' ', 'x'] ∧
    tokenW ['#', '0', 'f', 'f'] = .ok (.hash ['0', 'f', 'f']) [] ∧
    (['0', 'f', 'f'] : List Char) ≠ [] := by
  refine ⟨?_, by rfl, ?_⟩
  · exact c9_hash_requires_nonempty_name.1 ' ' ['x'] (by rfl)
  · exact c9_hash_requires_nonempty_name.2.2.1 ['#', '0', 'f', 'f'] _ [] ['0', 'f', 'f']
      (by rfl) rfl

theorem isAsciiDigit_isDigitByte {c : Char} (h : isAsciiDigit c = true) :
    isDigitByte c = true := by
  simp only [isAsciiDigit, Bool.and_eq_true, decide_eq_true_eq] at h
  simp only [isDigitByte, Bool.and_eq_true, decide_eq_true_eq]
  have : c.toNat % 256 = c.toNat := Nat.mod_eq_of_lt (by omega)
  omega

theorem takeWhile_run {p : Char → Bool} {ds rest : List Char}
    (hall : ∀ c ∈ ds, p c = true)
    (hhead : ∀ c, rest.head? = some c → p c = false) :
    (ds ++ rest).takeWhile p = ds := by
  induction ds with
  | nil =>
    rcases rest with _ | ⟨c, r2⟩
    · rfl
    · simp [List.takeWhile_cons, hhead c rfl]
  | cons d ds ih =>
    simp only [List.cons_append, List.takeWhile_cons, hall d (by simp)]
    simp [ih (fun c hc => hall c (by simp [hc]))]

theorem decDigitsW_run {ds rest : List Char} (h1 : ds ≠ [])
    (h2 : ∀ c ∈ ds, isAsciiDigit c = true) (h3 : natOfDigits ds < u32Size)
    (hhead : ∀ c, rest.head? = some c → isDigitByte c = false) :
    decDigitsW (ds ++ rest) = .ok (natOfDigits ds, ds.length) rest := by
  have hrun : (ds ++ rest).takeWhile isDigitByte = ds :=
    takeWhile_run (fun c hc => isAsciiDigit_isDigitByte (h2 c hc)) hhead
  simp only [decDigitsW, hrun]
  rw [if_neg (by simp [h1]), if_pos (by simp [h3]; intro c hc; exact h2 c hc)]
  rw [List.drop_left]

theorem decDigitsC_run {ds rest : List Char} (h1 : ds ≠ [])
    (h2 : ∀ c ∈ ds, isAsciiDigit c = true) (h3 : natOfDigits ds < u32Size)
    (hhead : ∀ c, rest.head? = some c → isDigitByte c = false) :
    decDigitsC (ds ++ rest) = .ok (natOfDigits ds, ds.length) rest := by
  have hrun : (ds ++ rest).takeWhile isAsciiDigit = ds :=
    takeWhile_run h2 (fun c hc => by
      have := hhead c hc
      rcases hd : isAsciiDigit c with _ | _
      · rfl
      · rw [isAsciiDigit_isDigitByte hd] at this
        cases this)
  simp only [decDigitsC, hrun]
  rw [if_neg (by simp [h1]), if_pos (by simp [h3])]
  rw [List.drop_left]

theorem decDigitsW_fail {cs : List Char}
    (hhead : ∀ c, cs.head? = some c → isDigitByte c = false) :
    decDigitsW cs = .fail := by
  have hrun : cs.takeWhile isDigitByte = [] := by
    rcases cs with _ | ⟨c, r⟩
    · rfl
    · simp [List.takeWhile_cons, hhead c rfl]
  simp [decDigitsW, hrun]

theorem decDigitsC_fail {cs : List Char}
    (hhead : ∀ c, cs.head? = some c → isDigitByte c = false) :
    decDigitsC cs = .fail := by
  have hrun : cs.takeWhile isAsciiDigit = [] := by
    rcases cs with _ | ⟨c, r⟩
    · rfl
    · have := hhead c rfl
      rcases hd : isAsciiDigit c with _ | _
      · simp [List.takeWhile_cons, hd]
      · rw [isAsciiDigit_isDigitByte hd] at this
        cases this
  simp [decDigitsC, hrun]

theorem optSign_no_sign {c : Char} {x : List Char} (h1 : c ≠ '+') (h2 : c ≠ '-') :
    optSign (c :: x) = (1, c :: x) := by
  unfold optSign
  split
  · next heq => injection heq with he _; exact absurd he h1
  · next heq => injection heq with he _; exact absurd he h2
  · rfl

theorem i32Wrap_small {n : Nat} (h : n < 2147483648) : i32Wrap n = (n : Int) := by
  have hmod : n % u32Size = n := Nat.mod_eq_of_lt (by unfold u32Size; omega)
  simp [i32Wrap, hmod, h]

theorem asciiDigit_ne_sign {c : Char} (h : isAsciiDigit c = true) :
    c ≠ '+' ∧ c ≠ '-' ∧ c ≠ '.' := by
  refine ⟨?_, ?_, ?_⟩ <;> intro hc <;> subst hc <;> simp [isAsciiDigit] at h

theorem takeWhile_nil_head {p : Char → Bool} {l : List Char}
    (h : l.takeWhile p = []) : ∀ c, l.head? = some c → p c = false := by
  intro c hc
  rcases l with _ | ⟨c2, r⟩
  · cases hc
  · simp only [List.head?_cons] at hc
    injection hc with hc
    subst hc
    rcases hp : p c2 with _ | _
    · rfl
    · rw [List.takeWhile_cons, hp] at h
      simp at h

/-- The exponent stage on an actual exponent `[eE] sign? digits`:
it consumes the whole exponent and records the sign-multiplied, i32-cast
magnitude as the second `powi` argument. -/
theorem numberTail_exp {digitsFn : List Char → PR (Nat × Nat)}
    (hr : ∀ {ds rest : List Char}, ds ≠ [] → (∀ c ∈ ds, isAsciiDigit c = true) →
      natOfDigits ds < u32Size → (∀ c, rest.head? = some c → isDigitByte c = false) →
      digitsFn (ds ++ rest) = .ok (natOfDigits ds, ds.length) rest)
    {s : Int} {i f d : Nat} {ec : Char} {esgn eds rest : List Char} {t : Int}
    (hec : ec = 'e' ∨ ec = 'E')
    (hesgn : (esgn = [] ∧ t = 1) ∨ (esgn = ['+'] ∧ t = 1) ∨ (esgn = ['-'] ∧ t = -1))
    (heds : eds ≠ []) (hedsd : ∀ c ∈ eds, isAsciiDigit c = true)
    (hedsv : natOfDigits eds < u32Size)
    (hrest : ∀ c, rest.head? = some c → isDigitByte c = false) :
    numberTail digitsFn s i f d (ec :: esgn ++ eds ++ rest) =
      .ok (.number ⟨s, i, f, -(i32Wrap d), t * i32Wrap (natOfDigits eds)⟩) rest := by
  have hdg : digitsFn (eds ++ rest) = .ok (natOfDigits eds, eds.length) rest :=
    hr heds hedsd hedsv hrest
  have hecb : (ec = 'e' || ec = 'E') = true := by
    rcases hec with h | h <;> simp [h]
  have hos : optSign (esgn ++ eds ++ rest) = (t, eds ++ rest) := by
    rcases hesgn with ⟨he, ht⟩ | ⟨he, ht⟩ | ⟨he, ht⟩ <;> subst he <;> subst ht
    · rcases eds with _ | ⟨d0, ds0⟩
      · exact absurd rfl heds
      · simp only [List.nil_append, List.cons_append]
        obtain ⟨h1, h2, -⟩ := asciiDigit_ne_sign (hedsd d0 (by simp))
        exact optSign_no_sign h1 h2
    · rfl
    · rfl
  simp only [numberTail]
  rw [show (ec :: esgn ++ eds ++ rest) = ec :: (esgn ++ eds ++ rest) by simp]
  dsimp only
  rw [if_pos hecb]
  rw [show esgn ++ eds ++ rest = esgn ++ (eds ++ rest) by simp] at hos ⊢
  rw [hos]
  dsimp only
  rw [hdg]

/-- The exponent stage when no exponent continuation follows: nothing is
consumed and the recorded exponent argument is `1 * i32Wrap 0`. -/
theorem numberTail_noexp {digitsFn : List Char → PR (Nat × Nat)}
    (hf : ∀ {cs : List Char}, (∀ c, cs.head? = some c → isDigitByte c = false) →
      digitsFn cs = .fail)
    {s : Int} {i f d : Nat} {cs : List Char}
    (hnE : expStartB cs = false) :
    numberTail digitsFn s i f d cs =
      .ok (.number ⟨s, i, f, -(i32Wrap d), 1 * i32Wrap 0⟩) cs := by
  rcases cs with _ | ⟨c, cs1⟩
  · rfl
  · simp only [numberTail]
    by_cases hce : (c = 'e' || c = 'E') = true
    · rw [if_pos hce]
      rcases hos : optSign cs1 with ⟨t2, cs2⟩
      dsimp only
      have hfail : digitsFn cs2 = .fail := by
        refine hf (takeWhile_nil_head ?_)
        simp only [expStartB, hce, Bool.true_and, Bool.not_eq_false'] at hnE
        rw [hos] at hnE
        exact List.isEmpty_iff.mp hnE
      rw [hfail]
    · rw [if_neg hce]

theorem numberFrac_some {digitsFn : List Char → PR (Nat × Nat)}
    (hr : ∀ {ds rest : List Char}, ds ≠ [] → (∀ c ∈ ds, isAsciiDigit c = true) →
      natOfDigits ds < u32Size → (∀ c, rest.head? = some c → isDigitByte c = false) →
      digitsFn (ds ++ rest) = .ok (natOfDigits ds, ds.length) rest)
    {s : Int} {i : Nat} {fds tail : List Char}
    (hfds : fds ≠ []) (hfdsd : ∀ c ∈ fds, isAsciiDigit c = true)
    (hfdsv : natOfDigits fds < u32Size)
    (htail : ∀ c, tail.head? = some c → isDigitByte c = false) :
    numberFrac digitsFn s i ('.' :: (fds ++ tail)) =
      numberTail digitsFn s i (natOfDigits fds) fds.length tail := by
  simp only [numberFrac]
  rw [hr hfds hfdsd hfdsv htail]

theorem numberFrac_none {digitsFn : List Char → PR (Nat × Nat)}
    (hf : ∀ {cs : List Char}, (∀ c, cs.head? = some c → isDigitByte c = false) →
      digitsFn cs = .fail)
    {s : Int} {i : Nat} {cs2 : List Char}
    (hdot : dotDigitStartB cs2 = false) :
    numberFrac digitsFn s i cs2 = numberTail digitsFn s i 0 0 cs2 := by
  simp only [numberFrac]
  split
  · next cs3 =>
    simp only [dotDigitStartB, Bool.not_eq_false'] at hdot
    have hfail : digitsFn cs3 = .fail :=
      hf (takeWhile_nil_head (List.isEmpty_iff.mp hdot))
    rw [hfail]
  · rfl

theorem numberNoInt_run {digitsFn : List Char → PR (Nat × Nat)}
    (hr : ∀ {ds rest : List Char}, ds ≠ [] → (∀ c ∈ ds, isAsciiDigit c = true) →
      natOfDigits ds < u32Size → (∀ c, rest.head? = some c → isDigitByte c = false) →
      digitsFn (ds ++ rest) = .ok (natOfDigits ds, ds.length) rest)
    {s : Int} {fds tail : List Char}
    (hfds : fds ≠ []) (hfdsd : ∀ c ∈ fds, isAsciiDigit c = true)
    (hfdsv : natOfDigits fds < u32Size)
    (htail : ∀ c, tail.head? = some c → isDigitByte c = false) :
    numberNoInt digitsFn s ('.' :: (fds ++ tail)) =
      numberTail digitsFn s 0 (natOfDigits fds) fds.length tail := by
  simp only [numberNoInt]
  rw [hr hfds hfdsd hfdsv htail]

/-- The full number grammar, for any digit scanner satisfying the run/fail
specifications (`dec_digits` of either lexer): on an input decomposing as
`sign? ( digits ( . digits )? | . digits ) ( [eE] sign? digits )?` followed by
a remainder that cannot extend the match, `number` consumes exactly the
grammar part and stores the components, with the fractional digit count and
the exponent magnitude cast through `as i32`. -/
theorem numberTok_run {digitsFn : List Char → PR (Nat × Nat)}
    (hr : ∀ {ds rest : List Char}, ds ≠ [] → (∀ c ∈ ds, isAsciiDigit c = true) →
      natOfDigits ds < u32Size → (∀ c, rest.head? = some c → isDigitByte c = false) →
      digitsFn (ds ++ rest) = .ok (natOfDigits ds, ds.length) rest)
    (hf : ∀ {cs : List Char}, (∀ c, cs.head? = some c → isDigitByte c = false) →
      digitsFn cs = .fail)
    {sgn intDs fracC expC rest : List Char} {s t : Int} {F D E : Nat}
    (hsgn : (sgn = [] ∧ s = 1) ∨ (sgn = ['+'] ∧ s = 1) ∨ (sgn = ['-'] ∧ s = -1))
    (hintd : ∀ c ∈ intDs, isAsciiDigit c = true)
    (hintv : natOfDigits intDs < u32Size)
    (hfrac : (fracC = [] ∧ F = 0 ∧ D = 0) ∨
      (∃ fds, fracC = '.' :: fds ∧ fds ≠ [] ∧ (∀ c ∈ fds, isAsciiDigit c = true) ∧
        natOfDigits fds < u32Size ∧ F = natOfDigits fds ∧ D = fds.length))
    (hexp : (expC = [] ∧ t = 1 ∧ E = 0) ∨
      (∃ ec esgn eds, expC = ec :: esgn ++ eds ∧ (ec = 'e' ∨ ec = 'E') ∧
        ((esgn = [] ∧ t = 1) ∨ (esgn = ['+'] ∧ t = 1) ∨ (esgn = ['-'] ∧ t = -1)) ∧
        eds ≠ [] ∧ (∀ c ∈ eds, isAsciiDigit c = true) ∧ natOfDigits eds < u32Size ∧
        E = natOfDigits eds))
    (hmant : intDs ≠ [] ∨ fracC ≠ [])
    (hrest1 : ∀ c, rest.head? = some c → isDigitByte c = false)
    (hrest2 : expC = [] → expStartB rest = false)
    (hrest3 : fracC = [] → expC = [] → dotDigitStartB rest = false) :
    numberTok digitsFn (sgn ++ (intDs ++ (fracC ++ (expC ++ rest)))) =
      .ok (.number ⟨s, natOfDigits intDs, F, -(i32Wrap D), t * i32Wrap E⟩) rest := by
  -- the head of the exponent-plus-rest continuation is never a digit
  have hExpRestHead : ∀ c, (expC ++ rest).head? = some c → isDigitByte c = false := by
    rcases hexp with ⟨he, -, -⟩ | ⟨ec, esgn, eds, he, hec, -, -, -, -, -⟩
    · subst he
      simpa using hrest1
    · subst he
      intro c hc
      simp only [List.cons_append, List.head?_cons] at hc
      injection hc with hc
      subst hc
      rcases hec with h | h <;> subst h <;> rfl
  -- the exponent stage, for any mantissa components
  have hTail : ∀ (s2 : Int) (i2 f2 d2 : Nat),
      numberTail digitsFn s2 i2 f2 d2 (expC ++ rest) =
        .ok (.number ⟨s2, i2, f2, -(i32Wrap d2), t * i32Wrap E⟩) rest := by
    intro s2 i2 f2 d2
    rcases hexp with ⟨he, ht, hE⟩ | ⟨ec, esgn, eds, he, hec, hesgn, heds, hedsd, hedsv, hE⟩
    · subst he
      subst ht
      subst hE
      simp only [List.nil_append]
      exact numberTail_noexp (fun h => hf h) (hrest2 rfl)
    · subst he
      subst hE
      have h := @numberTail_exp digitsFn (fun h1 h2 h3 h4 => hr h1 h2 h3 h4)
        s2 i2 f2 d2 ec esgn eds rest t hec hesgn heds hedsd hedsv hrest1
      rw [show ((ec :: esgn ++ eds) ++ rest : List Char) =
        ec :: ((esgn ++ eds) ++ rest) by simp]
      rw [show (ec :: esgn ++ eds ++ rest : List Char) =
        ec :: ((esgn ++ eds) ++ rest) by simp] at h
      exact h
  -- the fractional stage, for any sign and integer part
  have hFrac : ∀ (s2 : Int) (i2 : Nat),
      numberFrac digitsFn s2 i2 (fracC ++ (expC ++ rest)) =
        .ok (.number ⟨s2, i2, F, -(i32Wrap D), t * i32Wrap E⟩) rest := by
    intro s2 i2
    rcases hfrac with ⟨hfc, hF, hD⟩ | ⟨fds, hfc, hfds, hfdsd, hfdsv, hF, hD⟩
    · subst hfc
      subst hF
      subst hD
      simp only [List.nil_append]
      rw [numberFrac_none (fun h => hf h) ?_]
      · exact hTail s2 i2 0 0
      · rcases hexp with ⟨he, -, -⟩ | ⟨ec, esgn, eds, he, hec, -, -, -, -, -⟩
        · subst he
          simp only [List.nil_append]
          exact hrest3 rfl rfl
        · subst he
          rcases hec with h | h <;> subst h <;> rfl
    · subst hfc
      subst hF
      subst hD
      rw [show (('.' :: fds) ++ (expC ++ rest) : List Char) =
        '.' :: (fds ++ (expC ++ rest)) by simp]
      rw [numberFrac_some (fun h1 h2 h3 h4 => hr h1 h2 h3 h4) hfds hfdsd hfdsv hExpRestHead]
      exact hTail s2 i2 (natOfDigits fds) fds.length
  -- the sign
  have hHeadAfterSign : ∀ c, (intDs ++ (fracC ++ (expC ++ rest))).head? = some c →
      (c = '+' → False) ∧ (c = '-' → False) := by
    intro c hc
    rcases intDs with _ | ⟨d0, ids⟩
    · simp only [List.nil_append] at hc
      rcases hfrac with ⟨hfc, -, -⟩ | ⟨fds, hfc, -, -, -, -, -⟩
      · rcases hmant with h | h
        · exact absurd rfl h
        · exact absurd hfc h
      · subst hfc
        simp only [List.cons_append, List.head?_cons] at hc
        injection hc with hc
        subst hc
        refine ⟨fun h => ?_, fun h => ?_⟩ <;> simp at h
    · simp only [List.cons_append, List.head?_cons] at hc
      injection hc with hc
      subst hc
      obtain ⟨h1, h2, -⟩ := asciiDigit_ne_sign (hintd d0 (by simp))
      exact ⟨fun h => h1 h, fun h => h2 h⟩
  have hSign : optSign (sgn ++ (intDs ++ (fracC ++ (expC ++ rest)))) =
      (s, intDs ++ (fracC ++ (expC ++ rest))) := by
    rcases hsgn with ⟨hsg, hs⟩ | ⟨hsg, hs⟩ | ⟨hsg, hs⟩ <;> subst hsg <;> subst hs
    · simp only [List.nil_append]
      rcases hx : (intDs ++ (fracC ++ (expC ++ rest))) with _ | ⟨c0, x0⟩
      · rfl
      · have := hHeadAfterSign c0 (by rw [hx]; rfl)
        exact optSign_no_sign (fun h => this.1 h) (fun h => this.2 h)
    · rfl
    · rfl
  -- the mantissa
  simp only [numberTok]
  rw [hSign]
  dsimp only
  rcases intDs with _ | ⟨d0, ids⟩
  · -- no integer part: the first alternative fails, the second one must hit
    rcases hfrac with ⟨hfc, hF, hD⟩ | ⟨fds, hfc, hfds, hfdsd, hfdsv, hF, hD⟩
    · rcases hmant with h | h
      · exact absurd rfl h
      · exact absurd hfc h
    · subst hfc
      subst hF
      subst hD
      have hfail : digitsFn (([] : List Char) ++ (('.' :: fds) ++ (expC ++ rest))) = .fail := by
        refine hf ?_
        intro c hc
        simp only [List.nil_append, List.cons_append, List.head?_cons] at hc
        injection hc with hc
        subst hc
        rfl
      simp only [List.nil_append] at hfail ⊢
      rw [hfail]
      rw [show (('.' :: fds) ++ (expC ++ rest) : List Char) =
        '.' :: (fds ++ (expC ++ rest)) by simp]
      rw [numberNoInt_run (fun h1 h2 h3 h4 => hr h1 h2 h3 h4) hfds hfdsd hfdsv hExpRestHead]
      have := hTail s 0 (natOfDigits fds) fds.length
      simpa [natOfDigits] using this
  · -- integer part present
    have hIntHead : ∀ c, (fracC ++ (expC ++ rest)).head? = some c →
        isDigitByte c = false := by
      intro c hc
      rcases hfrac with ⟨hfc, -, -⟩ | ⟨fds, hfc, -, -, -, -, -⟩
      · subst hfc
        simp only [List.nil_append] at hc
        exact hExpRestHead c hc
      · subst hfc
        simp only [List.cons_append, List.head?_cons] at hc
        injection hc with hc
        subst hc
        rfl
    have hdig : digitsFn ((d0 :: ids) ++ (fracC ++ (expC ++ rest))) =
        .ok (natOfDigits (d0 :: ids), (d0 :: ids).length) (fracC ++ (expC ++ rest)) :=
      hr (by simp) hintd hintv hIntHead
    rw [hdig]
    exact hFrac s (natOfDigits (d0 :: ids))

theorem splitLastTwo_eq_none {α : Type} (l : List α) :
    splitLastTwo l = none ↔ l.length < 2 := by
  match l with
  | [] => simp [splitLastTwo]
  | [x] => simp [splitLastTwo]
  | x :: y :: ys =>
    constructor
    · intro h
      simp only [splitLastTwo] at h
      rcases hs : splitLastTwo (y :: ys) with _ | ⟨pre2, a2, b2⟩ <;> rw [hs] at h <;> cases h
    · intro h
      exfalso
      simp only [List.length_cons] at h
      omega

theorem splitLastTwo_eq_some {α : Type} :
    ∀ (l pre : List α) (a b : α), splitLastTwo l = some (pre, a, b) ↔ l = pre ++ [a, b]
  | [], pre, a, b => by
    simp only [splitLastTwo]
    constructor
    · intro h; cases h
    · intro h
      exfalso
      have hl := congrArg List.length h
      simp only [List.length_nil, List.length_append, List.length_cons] at hl
      omega
  | [x], pre, a, b => by
    simp only [splitLastTwo]
    constructor
    · intro h; cases h
    · intro h
      exfalso
      have hl := congrArg List.length h
      simp only [List.length_nil, List.length_append, List.length_cons] at hl
      omega
  | x :: y :: ys, pre, a, b => by
    simp only [splitLastTwo]
    rcases hs : splitLastTwo (y :: ys) with _ | ⟨pre2, a2, b2⟩
    · have hys : ys = [] := by
        have h2 := (splitLastTwo_eq_none (y :: ys)).mp hs
        simp only [List.length_cons] at h2
        exact List.length_eq_zero.mp (by omega)
      subst hys
      constructor
      · intro h
        cases h
        rfl
      · intro h
        rcases pre with _ | ⟨p, pre2⟩
        · simp at h
          simp [h.1, h.2]
        · exfalso
          have hl := congrArg List.length h
          simp only [List.length_nil, List.length_append, List.length_cons] at hl
          omega
    · have heq : y :: ys = pre2 ++ [a2, b2] := (splitLastTwo_eq_some (y :: ys) pre2 a2 b2).mp hs
      constructor
      · intro h
        cases h
        simp [heq]
      · intro h
        rcases pre with _ | ⟨p, pre⟩
        · exfalso
          simp at h
          have hl := congrArg List.length heq
          rw [h.2.2] at hl
          simp only [List.length_nil, List.length_append, List.length_cons] at hl
          omega
        · simp only [List.cons_append, List.cons.injEq] at h
          obtain ⟨hx, h2⟩ := h
          have h3 : splitLastTwo (y :: ys) = some (pre, a, b) :=
            (splitLastTwo_eq_some (y :: ys) pre a b).mpr h2
          rw [hs] at h3
          cases h3
          simp [hx]

theorem isImportantChunk_iff (a b : STT) :
    isImportantChunk a b = true ↔
      ∃ s1 s2 s3 s4, a = (.token (.symbol '!'), s1, s2) ∧
        b = (.token (.ident ("important".toList)), s3, s4) := by
  obtain ⟨ta, sa1, sa2⟩ := a
  obtain ⟨tb, sb1, sb2⟩ := b
  constructor
  · intro h
    cases ta <;> cases tb <;> simp [isImportantChunk] at h
    case token.token t1 t2 =>
      cases t1 <;> cases t2 <;> simp [isImportantChunk] at h
      case symbol.ident c s =>
        refine ⟨sa1, sa2, sb1, sb2, ?_, ?_⟩ <;> simp [h.1, h.2]
  · rintro ⟨s1, s2, s3, s4, h1, h2⟩
    cases h1
    cases h2
    simp [isImportantChunk]

/-- Claim C3 (counterexample): on the raw declaration value
`! <whitespace> important` the last two significant (non-junk) tokens are
`Symbol('!')` and `Ident("important")`, yet the source's post-pass leaves the
value unchanged and reports `important = false`, because `split_last_chunk`
inspects the last two elements literally and the whitespace between `!` and
`important` defeats the match. -/
theorem c3_junk_between_not_important :
    declarationValueImportant
        [(.token (.symbol '!'), 0, 1), (.token .whitespace, 1, 2),
          (.token (.ident ("important".toList)), 2, 11)] =
      ([(.token (.symbol '!'), 0, 1), (.token .whitespace, 1, 2),
          (.token (.ident ("important".toList)), 2, 11)], false) ∧
    List.filter (fun x => !(isJunkSTT x))
        [(.token (.symbol '!'), 0, 1), (.token .whitespace, 1, 2),
          (.token (.ident ("important".toList)), 2, 11)] =
      [(.token (.symbol '!'), 0, 1), (.token (.ident ("important".toList)), 2, 11)] := by
  exact ⟨rfl, rfl⟩

/-- Claim C3 (amended): for every raw declaration value, `important` is true
iff, after trimming trailing junk, the value ends with the two adjacent
elements `Symbol('!')`, `Ident("important")` (junk sitting between the `!`
and `important` defeats the flag); when the flag is true those two tokens and
any junk then trailing are absent from the stored value, and when it is false
the stored value is the junk-trimmed raw value. -/
theorem c3_important_iff_adjacent_bang_important (v : List STT) :
    ((declarationValueImportant v).2 = true ↔
      ∃ pre s1 s2 s3 s4, stripTrailingJunk v =
        pre ++ [(.token (.symbol '!'), s1, s2),
          (.token (.ident ("important".toList)), s3, s4)]) ∧
    (∀ pre s1 s2 s3 s4, stripTrailingJunk v =
        pre ++ [(.token (.symbol '!'), s1, s2),
          (.token (.ident ("important".toList)), s3, s4)] →
      (declarationValueImportant v).1 = stripTrailingJunk pre) ∧
    ((declarationValueImportant v).2 = false →
      (declarationValueImportant v).1 = stripTrailingJunk v) := by
  rcases hs : splitLastTwo (stripTrailingJunk v) with _ | ⟨pre, a, b⟩
  · have hv : declarationValueImportant v = (stripTrailingJunk v, false) := by
      simp only [declarationValueImportant]
      rw [hs]
    have hlen := (splitLastTwo_eq_none _).mp hs
    refine ⟨?_, ?_, ?_⟩
    · rw [hv]
      constructor
      · intro h; cases h
      · rintro ⟨pre2, s1, s2, s3, s4, h⟩
        exfalso
        rw [h] at hlen
        simp at hlen
    · rintro pre2 s1 s2 s3 s4 h
      exfalso
      rw [h] at hlen
      simp at hlen
    · intro _
      rw [hv]
  · have hpre : stripTrailingJunk v = pre ++ [a, b] := (splitLastTwo_eq_some _ _ _ _).mp hs
    by_cases hc : isImportantChunk a b = true
    · have hv : declarationValueImportant v = (stripTrailingJunk pre, true) := by
        simp only [declarationValueImportant]
        rw [hs]
        simp [hc]
      obtain ⟨s1, s2, s3, s4, ha, hb⟩ := (isImportantChunk_iff a b).mp hc
      subst ha
      subst hb
      refine ⟨?_, ?_, ?_⟩
      · rw [hv]
        constructor
        · intro _
          exact ⟨pre, s1, s2, s3, s4, hpre⟩
        · intro _
          rfl
      · rintro pre2 t1 t2 t3 t4 h
        rw [hpre] at h
        obtain ⟨hp, _⟩ := List.append_inj' h (by simp)
        rw [hv, hp]
      · intro h
        rw [hv] at h
        cases h
    · have hv : declarationValueImportant v = (stripTrailingJunk v, false) := by
        simp only [declarationValueImportant]
        rw [hs]
        simp [hc]
      refine ⟨?_, ?_, ?_⟩
      · rw [hv]
        constructor
        · intro h
          cases h
        · rintro ⟨pre2, s1, s2, s3, s4, h⟩
          exfalso
          rw [hpre] at h
          obtain ⟨hp, hsuf⟩ := List.append_inj' h (by simp)
          simp at hsuf
          exact hc ((isImportantChunk_iff a b).mpr ⟨s1, s2, s3, s4, hsuf.1, hsuf.2⟩)
      · rintro pre2 s1 s2 s3 s4 h
        exfalso
        rw [hpre] at h
        obtain ⟨hp, hsuf⟩ := List.append_inj' h (by simp)
        simp at hsuf
        exact hc ((isImportantChunk_iff a b).mpr ⟨s1, s2, s3, s4, hsuf.1, hsuf.2⟩)
      · intro _
        rw [hv]

/-- Witness for the amended C3 at a concrete input: the value
`bar ! important` (with trailing junk) gets `important = true` and value
`[bar]`. -/
theorem c3_important_witness :
    (declarationValueImportant
        [(.token (.ident ("bar".toList)), 5, 8), (.token .whitespace, 8, 9),
          (.token (.symbol '!'), 9, 10),
          (.token (.ident ("important".toList)), 10, 19),
          (.token .whitespace, 19, 20)]).2 = true ∧
    (declarationValueImportant
        [(.token (.ident ("bar".toList)), 5, 8), (.token .whitespace, 8, 9),
          (.token (.symbol '!'), 9, 10),
          (.token (.ident ("important".toList)), 10, 19),
          (.token .whitespace, 19, 20)]).1 =
      [(.token (.ident ("bar".toList)), 5, 8)] := by
  constructor
  · exact (c3_important_iff_adjacent_bang_important
      [(.token (.ident ("bar".toList)), 5, 8), (.token .whitespace, 8, 9),
        (.token (.symbol '!'), 9, 10),
        (.token (.ident ("important".toList)), 10, 19),
        (.token .whitespace, 19, 20)]).1.mpr
      ⟨[(.token (.ident ("bar".toList)), 5, 8), (.token .whitespace, 8, 9)], 9, 10, 10, 19, rfl⟩
  · exact ((c3_important_iff_adjacent_bang_important
      [(.token (.ident ("bar".toList)), 5, 8), (.token .whitespace, 8, 9),
        (.token (.symbol '!'), 9, 10),
        (.token (.ident ("important".toList)), 10, 19),
        (.token .whitespace, 19, 20)]).2.1
      [(.token (.ident ("bar".toList)), 5, 8), (.token .whitespace, 8, 9)] 9 10 10 19 rfl).trans rfl

/-- **C4** (amended).  For both lexers' `number` scanners: on source text
matching `sign? ( digits ( . digits )? | . digits ) ( [eE] sign? digits )?`
followed by a remainder that cannot extend the match, and provided every digit
run's value fits in `u32` (otherwise `.parse::<u32>().unwrap()` panics) and
the fractional digit count `D` and the exponent magnitude `E` are below `2^31`
(both go through an `as i32` cast), the Number token stores exactly the
components `s`, `I`, `F`, `−D`, `t·E` of the value formula
`s · (I + F · 10^(−D)) · 10^(t·E)`.  Without the `E < 2^31` bound the
claim is false: see the counterexample. -/
theorem c4_number_components
    (sgn intDs fracC expC rest : List Char) (s t : Int) (F D E : Nat)
    (hsgn : (sgn = [] ∧ s = 1) ∨ (sgn = ['+'] ∧ s = 1) ∨ (sgn = ['-'] ∧ s = -1))
    (hintd : ∀ c ∈ intDs, isAsciiDigit c = true)
    (hintv : natOfDigits intDs < u32Size)
    (hfrac : (fracC = [] ∧ F = 0 ∧ D = 0) ∨
      (∃ fds, fracC = '.' :: fds ∧ fds ≠ [] ∧ (∀ c ∈ fds, isAsciiDigit c = true) ∧
        natOfDigits fds < u32Size ∧ F = natOfDigits fds ∧ D = fds.length))
    (hexp : (expC = [] ∧ t = 1 ∧ E = 0) ∨
      (∃ ec esgn eds, expC = ec :: esgn ++ eds ∧ (ec = 'e' ∨ ec = 'E') ∧
        ((esgn = [] ∧ t = 1) ∨ (esgn = ['+'] ∧ t = 1) ∨ (esgn = ['-'] ∧ t = -1)) ∧
        eds ≠ [] ∧ (∀ c ∈ eds, isAsciiDigit c = true) ∧ natOfDigits eds < u32Size ∧
        E = natOfDigits eds))
    (hmant : intDs ≠ [] ∨ fracC ≠ [])
    (hrest1 : ∀ c, rest.head? = some c → isDigitByte c = false)
    (hrest2 : expC = [] → expStartB rest = false)
    (hrest3 : fracC = [] → expC = [] → dotDigitStartB rest = false)
    (hD31 : D < 2147483648) (hE31 : E < 2147483648) :
    numberTokW (sgn ++ (intDs ++ (fracC ++ (expC ++ rest)))) =
      .ok (.number ⟨s, natOfDigits intDs, F, -(D : Int), t * (E : Int)⟩) rest ∧
    numberTokC (sgn ++ (intDs ++ (fracC ++ (expC ++ rest)))) =
      .ok (.number ⟨s, natOfDigits intDs, F, -(D : Int), t * (E : Int)⟩) rest := by
  constructor
  · show numberTok decDigitsW _ = _
    rw [numberTok_run (fun h1 h2 h3 h4 => decDigitsW_run h1 h2 h3 h4)
      (fun h => decDigitsW_fail h) hsgn hintd hintv hfrac hexp hmant hrest1 hrest2 hrest3]
    rw [i32Wrap_small hD31, i32Wrap_small hE31]
  · show numberTok decDigitsC _ = _
    rw [numberTok_run (fun h1 h2 h3 h4 => decDigitsC_run h1 h2 h3 h4)
      (fun h => decDigitsC_fail h) hsgn hintd hintv hfrac hexp hmant hrest1 hrest2 hrest3]
    rw [i32Wrap_small hD31, i32Wrap_small hE31]

/-- Counterexample to C4 as stated: on `1e2147483648` (a well-formed number of
the claimed grammar, exponent magnitude `E = 2^31`) both lexers store the
exponent wrapped through `as i32` to `-2147483648`, not `t·E = 2147483648`. -/
theorem c4_exponent_wrap_counterexample :
    numberTokW ("1e2147483648".toList) =
      .ok (.number ⟨1, 1, 0, 0, -2147483648⟩) [] ∧
    numberTokC ("1e2147483648".toList) =
      .ok (.number ⟨1, 1, 0, 0, -2147483648⟩) [] ∧
    (-2147483648 : Int) ≠ 1 * (2147483648 : Int) := by
  refine ⟨by decide, by decide, by decide⟩

/-- Witness for the amended C4 at the concrete number `-12.5e-3`. -/
theorem c4_number_components_witness :
    numberTokW ("-12.5e-3".toList) =
      .ok (.number ⟨-1, 12, 5, -(1 : Int), (-1) * (3 : Int)⟩) [] ∧
    numberTokC ("-12.5e-3".toList) =
      .ok (.number ⟨-1, 12, 5, -(1 : Int), (-1) * (3 : Int)⟩) [] := by
  have h := c4_number_components ['-'] ['1', '2'] ['.', '5'] ['e', '-', '3'] []
    (-1) (-1) 5 1 3
    (Or.inr (Or.inr ⟨rfl, rfl⟩)) (by decide) (by decide)
    (Or.inr ⟨['5'], rfl, by decide, by decide, by decide, by decide, by decide⟩)
    (Or.inr ⟨'e', ['-'], ['3'], rfl, Or.inl rfl, Or.inr (Or.inr ⟨rfl, rfl⟩),
      by decide, by decide, by decide, by decide⟩)
    (Or.inl (by decide))
    (fun c hc => by simp at hc)
    (fun _ => rfl) (fun _ _ => rfl) (by decide) (by decide)
  exact h

theorem treeC_fail_head {d : Delim} {c : Char} {x : List Char} {pos : Nat}
    (h : ¬(c = d.openChar)) : treeC d (c :: x) pos = .fail := by
  rw [treeC.eq_def]
  dsimp only
  rw [if_neg h]

theorem tokenTreeC_nil (pos : Nat) : tokenTreeC [] pos = .fail := by
  rw [tokenTreeC.eq_def]
  simp only [treeC.eq_def]
  rfl

theorem lexGoC_nil (pos : Nat) : lexGoC [] pos = .ok [] [] := by
  rw [lexGoC.eq_def, tokenTreeC_nil]

/-- tokenC on an unterminated block comment `/*body` (no `*/` in `body`):
the comment is emitted with the partial body, consuming the whole input. -/
theorem tokenC_unterminated_comment {body : List Char} (h : hasStarSlash body = false) :
    tokenC ('/' :: '*' :: body) = .ok (.comment body) [] := by
  have hws : whitespaceTok ('/' :: '*' :: body) = .fail := by
    simp [whitespaceTok, List.takeWhile_cons, rustIsWhitespace]
  have hbc : blockCommentTokC ('/' :: '*' :: body) = .ok (.comment body) [] := by
    simp [blockCommentTokC, splitAtStarSlash_of_no body h]
  simp [tokenC, hws, hbc, PR.orElse, lineCommentTok]

/-- **C8**.  For every input opening a block comment whose `*/` never occurs,
the chumsky lexer succeeds and returns a single spanned Comment token holding
the partial body from after `/*` to end of input.  (The unused winnow sketch
in src/tokenizer.rs instead raises a cut error here.) -/
theorem c8_unterminated_block_comment (body : List Char)
    (h : hasStarSlash body = false) :
    lexerC ('/' :: '*' :: body) =
      .ok [(.token (.comment body), 0, 2 + body.length)] [] := by
  have htok := tokenC_unterminated_comment h
  have htt : tokenTreeC ('/' :: '*' :: body) 0 =
      .ok (.token (.comment body), 0, 2 + body.length) [] := by
    rw [tokenTreeC.eq_def]
    rw [treeC_fail_head (by decide), treeC_fail_head (by decide),
      treeC_fail_head (by decide)]
    rw [htok]
    simp only [List.length_cons, List.length_nil]
    congr 1
    simp only [Prod.mk.injEq, true_and]
    omega
  rw [lexerC]
  rw [lexGoC.eq_def, htt]
  dsimp only
  rw [dif_pos (by simp)]
  rw [lexGoC_nil]

theorem digitRunsOk_head {c : Char} {rest : List Char}
    (h : digitRunsOk (c :: rest) = true) :
    natOfDigits ((c :: rest).takeWhile isAsciiDigit) < u32Size ∧
      digitRunsOk rest = true := by
  simp only [digitRunsOk, Bool.and_eq_true, decide_eq_true_eq] at h
  exact h

theorem digitRunsOk_spec {cs : List Char} (h : digitRunsOk cs = true) :
    ∀ sfx, sfx <:+ cs → natOfDigits (sfx.takeWhile isAsciiDigit) < u32Size := by
  induction cs with
  | nil =>
    intro sfx hs
    rw [List.suffix_nil.mp hs]
    simp [natOfDigits, u32Size]
  | cons c rest ih =>
    intro sfx hs
    rcases List.suffix_cons_iff.mp hs with h1 | h1
    · rw [h1]
      exact (digitRunsOk_head h).1
    · exact ih (digitRunsOk_head h).2 sfx h1

theorem optSign_suffix {cs : List Char} : (optSign cs).2 <:+ cs := by
  unfold optSign
  split <;> simp

theorem decDigitsC_total {cs : List Char}
    (h : natOfDigits (cs.takeWhile isAsciiDigit) < u32Size) :
    decDigitsC cs = .fail ∨
      ∃ v n, decDigitsC cs = .ok v (cs.drop n) ∧ 0 < n ∧ n ≤ cs.length := by
  simp only [decDigitsC]
  by_cases he : (cs.takeWhile isAsciiDigit).isEmpty
  · left
    rw [if_pos he]
  · right
    rw [if_neg he, if_pos h]
    refine ⟨_, _, rfl, ?_, takeWhile_length_le⟩
    rcases hr : cs.takeWhile isAsciiDigit with _ | ⟨a, b⟩
    · rw [hr] at he
      simp at he
    · simp [hr]

/-- With no oversized digit run in sight, the exponent stage always succeeds
and its remainder is a suffix of its input. -/
theorem numberTailC_total (s : Int) (i f d : Nat) {cs : List Char}
    (hdr : ∀ sfx, sfx <:+ cs → natOfDigits (sfx.takeWhile isAsciiDigit) < u32Size) :
    ∃ t r, numberTail decDigitsC s i f d cs = .ok t r ∧ r <:+ cs := by
  rcases cs with _ | ⟨c, cs1⟩
  · exact ⟨_, _, rfl, List.suffix_rfl⟩
  · simp only [numberTail]
    rcases hb : (c = 'e' || c = 'E') with _ | _
    · rw [if_neg (by simp [hb])]
      exact ⟨_, _, rfl, List.suffix_rfl⟩
    · rw [if_pos rfl]
      rcases hos : optSign cs1 with ⟨t0, cs2⟩
      have hsfx2 : cs2 <:+ c :: cs1 := by
        have h1 : cs2 <:+ cs1 := by
          have := @optSign_suffix cs1
          rw [hos] at this
          exact this
        exact h1.trans (List.suffix_cons c cs1)
      dsimp only
      rcases decDigitsC_total (hdr cs2 hsfx2) with hd | ⟨v, n, hd, hn, -⟩
      · rw [hd]
        exact ⟨_, _, rfl, List.suffix_rfl⟩
      · rw [hd]
        exact ⟨_, _, rfl, (List.drop_suffix n cs2).trans hsfx2⟩

/-- The optional fractional stage always succeeds under the same condition. -/
theorem numberFracC_total (s : Int) (i : Nat) {cs : List Char}
    (hdr : ∀ sfx, sfx <:+ cs → natOfDigits (sfx.takeWhile isAsciiDigit) < u32Size) :
    ∃ t r, numberFrac decDigitsC s i cs = .ok t r ∧ r <:+ cs := by
  rcases cs with _ | ⟨c, cs3⟩
  · exact numberTailC_total s i 0 0 hdr
  · by_cases hc : c = '.'
    · subst hc
      simp only [numberFrac]
      have hsfx3 : cs3 <:+ '.' :: cs3 := List.suffix_cons '.' cs3
      rcases decDigitsC_total (hdr cs3 hsfx3) with hd | ⟨v, n, hd, hn, -⟩
      · rw [hd]
        exact numberTailC_total s i 0 0 hdr
      · rw [hd]
        rcases v with ⟨f, d⟩
        obtain ⟨t, r, ht, hr⟩ := numberTailC_total s i f d
          (fun sfx hs => hdr sfx (hs.trans ((List.drop_suffix n cs3).trans hsfx3)))
        exact ⟨t, r, ht, hr.trans ((List.drop_suffix n cs3).trans hsfx3)⟩
    · have heq : numberFrac decDigitsC s i (c :: cs3) =
          numberTail decDigitsC s i 0 0 (c :: cs3) := by
        simp only [numberFrac]
        split
        · next h3 =>
          injection h3 with h4 _
          exact absurd h4 hc
        · rfl
      rw [heq]
      exact numberTailC_total s i 0 0 hdr

theorem numberNoIntC_total (s : Int) {cs : List Char}
    (hdr : ∀ sfx, sfx <:+ cs → natOfDigits (sfx.takeWhile isAsciiDigit) < u32Size) :
    TokTotal cs (numberNoInt decDigitsC s cs) := by
  rcases cs with _ | ⟨c, cs3⟩
  · left
    rfl
  · by_cases hc : c = '.'
    · subst hc
      simp only [numberNoInt]
      have hsfx3 : cs3 <:+ '.' :: cs3 := List.suffix_cons '.' cs3
      rcases decDigitsC_total (hdr cs3 hsfx3) with hd | ⟨v, n, hd, hn, hn2⟩
      · left
        rw [hd]
      · right
        rw [hd]
        rcases v with ⟨f, d⟩
        obtain ⟨t, r, ht, hr⟩ := numberTailC_total s 0 f d
          (fun sfx hs => hdr sfx (hs.trans ((List.drop_suffix n cs3).trans hsfx3)))
        refine ⟨t, r, ht, hr.trans ((List.drop_suffix n cs3).trans hsfx3), ?_⟩
        have h1 := hr.length_le
        simp only [List.length_drop] at h1
        simp only [List.length_cons]
        omega
    · left
      simp only [numberNoInt]
      split
      · next h3 =>
        injection h3 with h4 _
        exact absurd h4 hc
      · rfl

theorem numberTokC_total {cs : List Char}
    (hdr : ∀ sfx, sfx <:+ cs → natOfDigits (sfx.takeWhile isAsciiDigit) < u32Size) :
    TokTotal cs (numberTokC cs) := by
  simp only [numberTokC, numberTok]
  rcases hos : optSign cs with ⟨s0, cs1⟩
  have hsfx1 : cs1 <:+ cs := by
    have := @optSign_suffix cs
    rw [hos] at this
    exact this
  dsimp only
  rcases decDigitsC_total (hdr cs1 hsfx1) with hd | ⟨v, n, hd, hn, hn2⟩
  · rw [hd]
    rcases numberNoIntC_total s0 (fun sfx hs => hdr sfx (hs.trans hsfx1)) with h1 | ⟨t, r, h1, h2, h3⟩
    · left
      rw [h1]
    · right
      refine ⟨t, r, by rw [h1], h2.trans hsfx1, ?_⟩
      have := hsfx1.length_le
      omega
  · rw [hd]
    rcases v with ⟨i, k⟩
    right
    obtain ⟨t, r, ht, hr⟩ := numberFracC_total s0 i
      (fun sfx hs => hdr sfx (hs.trans ((List.drop_suffix n cs1).trans hsfx1)))
    refine ⟨t, r, ht, hr.trans ((List.drop_suffix n cs1).trans hsfx1), ?_⟩
    have h1 := hr.length_le
    have h2 := hsfx1.length_le
    simp only [List.length_drop] at h1
    omega

theorem whitespaceTok_total (cs : List Char) : TokTotal cs (whitespaceTok cs) := by
  simp only [whitespaceTok]
  by_cases he : (cs.takeWhile rustIsWhitespace).isEmpty
  · left
    rw [if_pos he]
  · right
    rw [if_neg he]
    refine ⟨_, _, rfl, List.drop_suffix _ _, ?_⟩
    have h1 : 0 < (cs.takeWhile rustIsWhitespace).length := by
      rcases hr : cs.takeWhile rustIsWhitespace with _ | ⟨a, b⟩
      · rw [hr] at he
        simp at he
      · simp
    have h2 : (cs.takeWhile rustIsWhitespace).length ≤ cs.length := takeWhile_length_le
    simp only [List.length_drop]
    omega

theorem lineCommentTok_total (cs : List Char) : TokTotal cs (lineCommentTok cs) := by
  unfold lineCommentTok
  split
  · next rest =>
    right
    refine ⟨_, _, rfl, ?_, ?_⟩
    · exact (List.dropWhile_suffix _).trans
        ((List.suffix_cons '/' rest).trans (List.suffix_cons '/' ('/' :: rest)))
    · exact lt_of_le_of_lt (List.IsSuffix.length_le (List.dropWhile_suffix _))
        (by simp only [List.length_cons]; omega)
  · left
    rfl

theorem blockCommentTokC_total (cs : List Char) : TokTotal cs (blockCommentTokC cs) := by
  unfold blockCommentTokC
  split
  · next rest =>
    right
    rcases hsp : splitAtStarSlash rest with ⟨body, after⟩
    dsimp only
    rcases after with _ | a
    · refine ⟨_, _, rfl, List.nil_suffix, by simp⟩
    · have heq := splitAtStarSlash_some rest body a hsp
      have hsfx : a <:+ rest := ⟨body ++ ['*', '/'], by simp [heq]⟩
      refine ⟨_, _, rfl, ?_, ?_⟩
      · exact hsfx.trans ((List.suffix_cons '*' rest).trans (List.suffix_cons '/' ('*' :: rest)))
      · have : rest.length = body.length + 2 + a.length := by
          rw [heq]
          simp only [List.length_append, List.length_cons]
          omega
        simp only [Option.getD_some, List.length_cons]
        omega
  · left
    rfl

theorem wouldStart_head {c : Char} {rest : List Char}
    (h : wouldStartIdentifier (c :: rest) = true) : isName c = true ∨ c = '\\' := by
  rw [wouldStartIdentifier.eq_def] at h
  split at h
  · next heq =>
    injection heq with h1 _
    left
    rw [h1]
    rfl
  · next c1 rest1 heq =>
    injection heq with h1 h2
    subst h1
    by_cases hns : isNameStart c
    · left
      simp [isName, hns]
    · rw [if_neg hns] at h
      by_cases hbs : c = '\\'
      · right
        exact hbs
      · rw [if_neg hbs] at h
        cases h
  · next heq =>
    cases heq

theorem identTokC_total {cs : List Char} (hnb : '\\' ∉ cs) :
    TokTotal cs (identTokC cs) := by
  simp only [identTokC]
  by_cases hws : wouldStartIdentifier cs
  · right
    rw [if_pos hws]
    refine ⟨_, _, rfl, List.drop_suffix _ _, ?_⟩
    rcases cs with _ | ⟨c, rest⟩
    · cases hws
    · rcases wouldStart_head hws with hn | hb
      · have hrun : ((c :: rest).takeWhile isName).length =
            (rest.takeWhile isName).length + 1 := by
          rw [List.takeWhile_cons, hn]
          simp
        have h2 : (rest.takeWhile isName).length ≤ rest.length := takeWhile_length_le
        simp only [List.length_drop, hrun, List.length_cons]
        omega
      · exact absurd (hb ▸ List.mem_cons_self c rest) hnb
  · left
    rw [if_neg hws]

theorem hashTokC_total (cs : List Char) : TokTotal cs (hashTokC cs) := by
  unfold hashTokC
  split
  · next rest =>
    right
    dsimp only
    refine ⟨_, _, rfl, (List.drop_suffix _ _).trans (List.suffix_cons '#' rest), ?_⟩
    simp only [List.length_drop, List.length_cons]
    exact Nat.lt_succ_of_le (Nat.sub_le _ _)
  · left
    rfl

theorem stringWithQuoteC_total (q : Char) (cs : List Char) :
    TokTotal cs (stringWithQuoteC q cs) := by
  unfold stringWithQuoteC
  split
  · next c rest =>
    by_cases hc : c = q
    · rw [if_pos hc]
      rcases hsp : splitAtChar q rest with ⟨body, after⟩
      rcases after with _ | a
      <;> dsimp only
      · left
        rfl
      · right
        obtain ⟨heq, -⟩ := splitAtChar_some q rest body a hsp
        have hsfx : a <:+ rest := ⟨body ++ [q], by simp [heq]⟩
        refine ⟨_, _, rfl, hsfx.trans (List.suffix_cons c rest), ?_⟩
        have : rest.length = body.length + 1 + a.length := by
          rw [heq]
          simp only [List.length_append, List.length_cons]
          omega
        simp only [List.length_cons]
        omega
    · left
      rw [if_neg hc]
  · left
    rfl

theorem tokOk_orElse {cs : List Char} {a : PR Token} {f : Unit → PR Token}
    (ha : TokTotal cs a)
    (hf : ∃ t r, f () = .ok t r ∧ r <:+ cs ∧ r.length < cs.length) :
    ∃ t r, a.orElse f = .ok t r ∧ r <:+ cs ∧ r.length < cs.length := by
  rcases ha with ha | ⟨t, r, ha, h1, h2⟩
  · simpa [PR.orElse, ha] using hf
  · exact ⟨t, r, by simp [PR.orElse, ha], h1, h2⟩

/-- On nonempty input without `\` and without an oversized digit run, the
chumsky `token` always succeeds and consumes at least one character. -/
theorem tokenC_total {cs : List Char} (hne : cs ≠ []) (hnb : '\\' ∉ cs)
    (hdr : ∀ sfx, sfx <:+ cs → natOfDigits (sfx.takeWhile isAsciiDigit) < u32Size) :
    ∃ t r, tokenC cs = .ok t r ∧ r <:+ cs ∧ r.length < cs.length := by
  have hany : ∃ t r, anySymbolTok cs = .ok t r ∧ r <:+ cs ∧ r.length < cs.length := by
    rcases cs with _ | ⟨c, rest⟩
    · exact absurd rfl hne
    · exact ⟨_, _, rfl, List.suffix_cons c rest, by simp⟩
  have hstr : TokTotal cs (stringTokC cs) := by
    unfold stringTokC
    rcases stringWithQuoteC_total '"' cs with h1 | ⟨t, r, h1, h2, h3⟩
    · rcases stringWithQuoteC_total '\'' cs with h4 | ⟨t, r, h4, h2, h3⟩
      · left
        simp [PR.orElse, h1, h4]
      · right
        exact ⟨t, r, by simp [PR.orElse, h1, h4], h2, h3⟩
    · right
      exact ⟨t, r, by simp [PR.orElse, h1], h2, h3⟩
  unfold tokenC
  exact tokOk_orElse (whitespaceTok_total cs) (tokOk_orElse (lineCommentTok_total cs)
    (tokOk_orElse (blockCommentTokC_total cs) (tokOk_orElse (identTokC_total hnb)
      (tokOk_orElse (hashTokC_total cs) (tokOk_orElse hstr
        (tokOk_orElse (numberTokC_total hdr) hany))))))

/-- The tree layer of the chumsky lexer: on inputs without `\` and without an
oversized digit run, `token_tree` always succeeds with strict progress (on
nonempty input) and the child repetition always succeeds. -/
theorem treeLayer_total :
    ∀ n, ∀ cs : List Char, cs.length ≤ n → '\\' ∉ cs →
      (∀ sfx, sfx <:+ cs → natOfDigits (sfx.takeWhile isAsciiDigit) < u32Size) →
      (∀ pos, cs ≠ [] →
        ∃ sp r, tokenTreeC cs pos = .ok sp r ∧ r <:+ cs ∧ r.length < cs.length) ∧
      (∀ d pos, ∃ ch r, repInnerC d cs pos = .ok ch r ∧ r <:+ cs) := by
  intro n
  induction n with
  | zero =>
    intro cs hlen hnb hdr
    have hcs : cs = [] := List.length_eq_zero.mp (Nat.le_zero.mp hlen)
    subst hcs
    constructor
    · intro pos hne
      exact absurd rfl hne
    · intro d pos
      rw [repInnerC.eq_def]
      rw [if_neg (by simp)]
      rw [tokenTreeC_nil]
      exact ⟨_, _, rfl, List.suffix_rfl⟩
  | succ n ih =>
    intro cs hlen hnb hdr
    rcases cs with _ | ⟨c, rest⟩
    · constructor
      · intro pos hne
        exact absurd rfl hne
      · intro d pos
        rw [repInnerC.eq_def]
        rw [if_neg (by simp)]
        rw [tokenTreeC_nil]
        exact ⟨_, _, rfl, List.suffix_rfl⟩
    · have hlen' : rest.length ≤ n := by
        simp only [List.length_cons] at hlen
        omega
      have hnbr : '\\' ∉ rest := fun hm => hnb (List.mem_cons_of_mem c hm)
      have hdrr : ∀ sfx, sfx <:+ rest →
          natOfDigits (sfx.takeWhile isAsciiDigit) < u32Size :=
        fun sfx hs => hdr sfx (hs.trans (List.suffix_cons c rest))
      have httPart : ∀ pos, ∃ sp r, tokenTreeC (c :: rest) pos = .ok sp r ∧
          r <:+ (c :: rest) ∧ r.length < (c :: rest).length := by
        intro pos
        have htree : ∀ d : Delim, treeC d (c :: rest) pos = .fail ∨
            ∃ sp r, treeC d (c :: rest) pos = .ok sp r ∧ r <:+ (c :: rest) ∧
              r.length < (c :: rest).length := by
          intro d
          by_cases hc : c = d.openChar
          · rw [treeC.eq_def]
            dsimp only
            rw [if_pos hc]
            obtain ⟨ch, r2, hrep, hsfx2⟩ := (ih rest hlen' hnbr hdrr).2 d (pos + 1)
            rw [hrep]
            rcases r2 with _ | ⟨c2, r3⟩
            · left
              rfl
            · by_cases hcl : c2 = d.closeChar
              · right
                dsimp only
                rw [if_pos hcl]
                refine ⟨_, r3, rfl, ?_, ?_⟩
                · exact ((List.suffix_cons c2 r3).trans hsfx2).trans
                    (List.suffix_cons c rest)
                · have := hsfx2.length_le
                  simp only [List.length_cons] at this ⊢
                  omega
              · left
                dsimp only
                rw [if_neg hcl]
          · rw [treeC.eq_def]
            dsimp only
            rw [if_neg hc]
            left
            rfl
        rw [tokenTreeC.eq_def]
        rcases htree .paren with h1 | ⟨sp, r, h1, h2, h3⟩
        · rw [h1]
          rcases htree .brace with h4 | ⟨sp, r, h4, h5, h6⟩
          · rw [h4]
            rcases htree .bracket with h7 | ⟨sp, r, h7, h8, h9⟩
            · rw [h7]
              obtain ⟨t, r, htok, h5, h6⟩ := tokenC_total (by simp) hnb hdr
              rw [htok]
              exact ⟨_, r, rfl, h5, h6⟩
            · rw [h7]
              exact ⟨sp, r, rfl, h8, h9⟩
          · rw [h4]
            exact ⟨sp, r, rfl, h5, h6⟩
        · rw [h1]
          exact ⟨sp, r, rfl, h2, h3⟩
      refine ⟨fun pos _ => httPart pos, ?_⟩
      intro d pos
      rw [repInnerC.eq_def]
      by_cases hcl : (c :: rest).head? = some d.closeChar
      · rw [if_pos hcl]
        exact ⟨_, _, rfl, List.suffix_rfl⟩
      · rw [if_neg hcl]
        obtain ⟨sp, r, htt, h2, h3⟩ := httPart pos
        rw [htt]
        dsimp only
        rw [dif_pos h3]
        have hrlen : r.length ≤ n := by
          simp only [List.length_cons] at h3
          omega
        obtain ⟨ch2, r2, hrep2, hsfx3⟩ := (ih r hrlen (fun hm => hnb (h2.subset hm))
          (fun sfx hs => hdr sfx (hs.trans h2))).2 d sp.2.2
        rcases ch2 with ⟨children2, pos2⟩
        rw [hrep2]
        exact ⟨_, _, rfl, hsfx3.trans h2⟩

/-- On inputs without `\` and without an oversized digit run, the top-level
repetition consumes the whole input and succeeds. -/
theorem lexGoC_total :
    ∀ n, ∀ cs : List Char, cs.length ≤ n → '\\' ∉ cs →
      (∀ sfx, sfx <:+ cs → natOfDigits (sfx.takeWhile isAsciiDigit) < u32Size) →
      ∀ pos, ∃ ts, lexGoC cs pos = .ok ts [] := by
  intro n
  induction n with
  | zero =>
    intro cs hlen hnb hdr pos
    have hcs : cs = [] := List.length_eq_zero.mp (Nat.le_zero.mp hlen)
    subst hcs
    exact ⟨[], lexGoC_nil pos⟩
  | succ n ih =>
    intro cs hlen hnb hdr pos
    rcases cs with _ | ⟨c, rest⟩
    · exact ⟨[], lexGoC_nil pos⟩
    · obtain ⟨sp, r, htt, h2, h3⟩ :=
        (treeLayer_total (n + 1) (c :: rest) hlen hnb hdr).1 pos (by simp)
      rw [lexGoC.eq_def, htt]
      dsimp only
      rw [dif_pos h3]
      have hrlen : r.length ≤ n := by
        simp only [List.length_cons] at hlen h3
        omega
      obtain ⟨ts, hts⟩ := ih r hrlen (fun hm => hnb (h2.subset hm))
        (fun sfx hs => hdr sfx (hs.trans h2)) sp.2.2
      rw [hts]
      exact ⟨sp :: ts, rfl⟩

/-- **C10** (amended).  The chumsky `lexer()` succeeds on every input that
contains no `\` character and no digit run with value `2^32` or more.  On such
inputs every stray delimiter or quote really is swallowed by the `Symbol`
catch-all.  The exceptions the amendment carves out are real: see the
counterexample (a lone `\` makes the lexer loop: `ident` succeeds with an
empty run at the same position forever), and the digit-run panic of C4. -/
theorem c10_lexer_succeeds (cs : List Char) (hnb : '\\' ∉ cs)
    (hdr : digitRunsOk cs = true) : (lexerC cs).isOk = true := by
  obtain ⟨ts, hts⟩ := lexGoC_total cs.length cs le_rfl hnb (digitRunsOk_spec hdr) 0
  unfold lexerC
  rw [hts]
  rfl

/-- Counterexample to C10 as stated: on the input `\` the chumsky lexer does
not succeed — `ident` accepts an empty identifier run without consuming the
`\`, so the token repetition makes no progress (the model's `stuck`). -/
theorem c10_backslash_counterexample : lexerC ['\\'] = .stuck := by
  have htok : tokenC ['\\'] = .ok (.ident []) ['\\'] := by decide
  have htt : tokenTreeC ['\\'] 0 = .ok (.token (.ident []), 0, 0) ['\\'] := by
    rw [tokenTreeC.eq_def]
    rw [treeC_fail_head (by decide), treeC_fail_head (by decide),
      treeC_fail_head (by decide)]
    rw [htok]
    rfl
  unfold lexerC
  rw [lexGoC.eq_def, htt]
  dsimp only
  rw [dif_neg (by simp)]

/-- Witness for the amended C10 at the concrete input `a{(1)} "x"`. -/
theorem c10_lexer_succeeds_witness :
    (lexerC ("a\x7b(1)\x7d \"x\"".toList)).isOk = true :=
  c10_lexer_succeeds _ (by decide) (by decide)

/-- Witness for C8 at the concrete input `/* abc`. -/
theorem c8_unterminated_block_comment_witness :
    lexerC ("/* abc".toList) =
      .ok [(.token (.comment (' ' :: 'a' :: 'b' :: 'c' :: [])), 0, 6)] [] := by
  have h := c8_unterminated_block_comment (' ' :: 'a' :: 'b' :: 'c' :: []) (by decide)
  exact h

theorem asciiDigit_aux {d : Char} (h : isAsciiDigit d = true) :
    48 ≤ d.toNat ∧ d.toNat ≤ 57 := by
  simpa [isAsciiDigit] using h

theorem asciiDigit_ne {d c : Char} (h : isAsciiDigit d = true)
    (hc : isAsciiDigit c = false) : d ≠ c := by
  intro he
  rw [he] at h
  rw [h] at hc
  cases hc

theorem asciiDigit_not_multispace {d : Char} (h : isAsciiDigit d = true) :
    isMultispace d = false := by
  have h1 : d ≠ ' ' := asciiDigit_ne h (by decide)
  have h2 : d ≠ '\t' := asciiDigit_ne h (by decide)
  have h3 : d ≠ '\r' := asciiDigit_ne h (by decide)
  have h4 : d ≠ '\n' := asciiDigit_ne h (by decide)
  simp [isMultispace, h1, h2, h3, h4]

theorem junk0_nil (fuel : Nat) : junk0 (fuel + 1) [] = .ok () [] := rfl

theorem junk_fail_head {c : Char} {rest : List Char}
    (h1 : isMultispace c = false) (h2 : c ≠ '/') : junk (c :: rest) = .fail := by
  have hws : junk_whitespace (c :: rest) = .fail := by
    simp [junk_whitespace, List.takeWhile_cons, h1]
  have hpre : ∀ x : List Char, prefixDrop ('/' :: x) (c :: rest) = none := by
    intro x
    simp only [prefixDrop]
    rw [if_neg (fun he => h2 he.symm)]
  have hlc : junk_line_comment (c :: rest) = .fail := by
    simp only [junk_line_comment, tag]
    rw [show (("//").toList : List Char) = '/' :: ['/'] from rfl, hpre ['/']]
  have hbc : junk_block_comment (c :: rest) = .fail := by
    simp only [junk_block_comment, tag]
    rw [show (("/*").toList : List Char) = '/' :: ['*'] from rfl, hpre ['*']]
  simp [junk, hws, hlc, hbc, PR.orElse]

theorem junk0_no {c : Char} {rest : List Char} (fuel : Nat)
    (h1 : isMultispace c = false) (h2 : c ≠ '/') :
    junk0 (fuel + 1) (c :: rest) = .ok () (c :: rest) := by
  simp only [junk0, junk_fail_head h1 h2]

theorem junk0_space {c : Char} {rest : List Char} (fuel : Nat)
    (h1 : isMultispace c = false) (h2 : c ≠ '/') :
    junk0 (fuel + 2) (' ' :: c :: rest) = .ok () (c :: rest) := by
  have hj : junk (' ' :: c :: rest) = .ok () (c :: rest) := by
    have hrun : (' ' :: c :: rest).takeWhile isMultispace = [' '] := by
      simp [List.takeWhile_cons, h1]
      rfl
    simp [junk, junk_whitespace, hrun, PR.orElse]
  simp only [junk0, hj]
  rw [if_pos (by simp)]
  exact junk0_no fuel h1 h2

theorem token_of_junk0 {α : Type} {f : List Char → PR α} {cs r : List Char}
    (h : junk0 (cs.length + 1) cs = .ok () r) : token f cs = f r := by
  simp [token, h]

theorem fold_many0_stop {α β : Type} {p : List Char → PR α} {g : β → α → β}
    {acc : β} {cs : List Char} {fuel : Nat} (h0 : fuel ≠ 0) (h : p cs = .fail) :
    fold_many0 p g fuel acc cs = .ok acc cs := by
  cases fuel with
  | zero => exact absurd rfl h0
  | succ n => simp only [fold_many0, h]

theorem fold_many0_step {α β : Type} {p : List Char → PR α} {g : β → α → β}
    {acc : β} {cs : List Char} {a : α} {r : List Char} {fuel : Nat}
    (h0 : fuel ≠ 0) (h : p cs = .ok a r) (hlen : r.length < cs.length) :
    fold_many0 p g fuel acc cs = fold_many0 p g (fuel - 1) (g acc a) r := by
  cases fuel with
  | zero => exact absurd rfl h0
  | succ n =>
    simp only [fold_many0, h]
    rw [if_pos hlen]
    rfl

theorem many0_go_stop {α : Type} {p : List Char → PR α} {acc : List α}
    {cs : List Char} {fuel : Nat} (h0 : fuel ≠ 0) (h : p cs = .fail) :
    many0_go p fuel acc cs = .ok acc cs := by
  cases fuel with
  | zero => exact absurd rfl h0
  | succ n => simp only [many0_go, h]

theorem sep_list_go_stop {α β : Type} {sep : List Char → PR β}
    {p : List Char → PR α} {acc : List α} {cs : List Char} {fuel : Nat}
    (h0 : fuel ≠ 0) (h : sep cs = .fail) :
    sep_list_go sep p fuel acc cs = .ok acc cs := by
  cases fuel with
  | zero => exact absurd rfl h0
  | succ n => simp only [sep_list_go, h]

theorem binary_operation_fail {operand : List Char → PR Expression}
    {operator : List Char → PR BinaryOperator} {cs : List Char}
    (h : operand cs = .fail) : binary_operation operand operator cs = .fail := by
  simp [binary_operation, h]

/-- The digit atom of the C5 inputs: `numeric` on a single digit whose
remainder is empty or starts with a space. -/
theorem numeric_digit {d : Char} {rest : List Char} (hd : isAsciiDigit d = true)
    (hrest : rest = [] ∨ rest.head? = some ' ') :
    numeric (d :: rest) = .ok (⟨1, natOfDigits [d], 0, 0, 0⟩, none) rest := by
  obtain ⟨hb1, hb2⟩ := asciiDigit_aux hd
  have hrest1 : ∀ c, rest.head? = some c → isDigitByte c = false := by
    intro c hc
    rcases hrest with h | h
    · rw [h] at hc
      cases hc
    · rw [h] at hc
      injection hc with hc
      rw [← hc]
      rfl
  have hrest2 : expStartB rest = false := by
    rcases hrest with h | h
    · rw [h]
      rfl
    · rcases rest with _ | ⟨x, xs⟩
      · rfl
      · injection h with h
        rw [h]
        rfl
  have hrest3 : dotDigitStartB rest = false := by
    rcases hrest with h | h
    · rw [h]
      rfl
    · rcases rest with _ | ⟨x, xs⟩
      · rfl
      · injection h with h
        rw [h]
        rfl
  have hnum := @numberTok_run decDigitsW
    (fun h1 h2 h3 h4 => decDigitsW_run h1 h2 h3 h4) (fun h => decDigitsW_fail h)
    [] [d] [] [] rest 1 1 0 0 0
    (Or.inl ⟨rfl, rfl⟩)
    (fun c hc => by rw [List.mem_singleton.mp hc]; exact hd)
    (by simp only [natOfDigits, List.foldl]; unfold u32Size; omega)
    (Or.inl ⟨rfl, rfl, rfl⟩) (Or.inl ⟨rfl, rfl, rfl⟩)
    (Or.inl (by simp))
    hrest1 (fun _ => hrest2) (fun _ _ => hrest3)
  simp only [List.nil_append, List.singleton_append] at hnum
  have hval : (⟨1, natOfDigits [d], 0, -(i32Wrap 0), 1 * i32Wrap 0⟩ : F32) =
      ⟨1, natOfDigits [d], 0, 0, 0⟩ := by
    have : i32Wrap 0 = 0 := by decide
    rw [this]
    rfl
  rw [hval] at hnum
  have hident : ident rest = .fail := by
    rcases hrest with h | h
    · rw [h]
      rfl
    · rcases rest with _ | ⟨x, xs⟩
      · rfl
      · injection h with h
        rw [h]
        rfl
  simp only [numeric, hnum, hident]
  rcases hrest with h | h
  · rw [h]
  · rcases rest with _ | ⟨x, xs⟩
    · rfl
    · injection h with h
      rw [h]
      rfl

/-- `numeric_value` on a digit atom (no leading junk). -/
theorem numeric_value_digit {d : Char} {rest : List Char}
    (hd : isAsciiDigit d = true) (hrest : rest = [] ∨ rest.head? = some ' ') :
    numeric_value (d :: rest) = .ok (.numeric ⟨1, natOfDigits [d], 0, 0, 0⟩ none) rest := by
  have hj := @junk0_no d rest ((d :: rest).length)
    (asciiDigit_not_multispace hd) (asciiDigit_ne hd (by decide))
  rw [numeric_value.eq_def, token_of_junk0 hj, numeric_digit hd hrest]

/-- `numeric_value` on a digit atom after a single leading space. -/
theorem numeric_value_space_digit {d : Char} {rest : List Char}
    (hd : isAsciiDigit d = true) (hrest : rest = [] ∨ rest.head? = some ' ') :
    numeric_value (' ' :: d :: rest) =
      .ok (.numeric ⟨1, natOfDigits [d], 0, 0, 0⟩ none) rest := by
  have hj : junk0 ((' ' :: d :: rest).length + 1) (' ' :: d :: rest) =
      .ok () (d :: rest) := by
    have := @junk0_space d rest (rest.length + 1)
      (asciiDigit_not_multispace hd) (asciiDigit_ne hd (by decide))
    simpa using this
  rw [numeric_value.eq_def, token_of_junk0 hj, numeric_digit hd hrest]

/-- `simple_expression` on a digit atom: the first alternative hits. -/
theorem simple_expression_digit {fuel : Nat} {d : Char} {rest : List Char}
    (hd : isAsciiDigit d = true) (hrest : rest = [] ∨ rest.head? = some ' ') :
    simple_expression (fuel + 1) (d :: rest) =
      .ok (.numeric ⟨1, natOfDigits [d], 0, 0, 0⟩ none) rest := by
  simp only [simple_expression, numeric_value_digit hd hrest]
  rfl

theorem simple_expression_space_digit {fuel : Nat} {d : Char} {rest : List Char}
    (hd : isAsciiDigit d = true) (hrest : rest = [] ∨ rest.head? = some ' ') :
    simple_expression (fuel + 1) (' ' :: d :: rest) =
      .ok (.numeric ⟨1, natOfDigits [d], 0, 0, 0⟩ none) rest := by
  simp only [simple_expression, numeric_value_space_digit hd hrest]
  rfl

theorem symbol_tag_eval {s cs r : List Char}
    (hj : junk0 (cs.length + 1) cs = .ok () r) : symbol s cs = tag s r := by
  show token (tag s) cs = tag s r
  exact token_of_junk0 hj

theorem product_operator_space_minus (rest : List Char) :
    product_operator (' ' :: '-' :: rest) = .fail := by
  have hj : junk0 ((' ' :: '-' :: rest).length + 1) (' ' :: '-' :: rest) =
      .ok () ('-' :: rest) := junk0_space (rest.length + 1) (by decide) (by decide)
  simp only [product_operator, symbol_tag_eval hj]
  rfl

theorem sum_operator_space_minus (rest : List Char) :
    sum_operator (' ' :: '-' :: rest) = .ok .subtract rest := by
  have hj : junk0 ((' ' :: '-' :: rest).length + 1) (' ' :: '-' :: rest) =
      .ok () ('-' :: rest) := junk0_space (rest.length + 1) (by decide) (by decide)
  simp only [sum_operator, symbol_tag_eval hj]
  rfl

theorem op_pair_fail_space_minus (operand : List Char → PR Expression)
    (rest : List Char) :
    op_pair operand product_operator (' ' :: '-' :: rest) = .fail := by
  simp only [op_pair, product_operator_space_minus]

theorem product_operator_space_star (rest : List Char) :
    product_operator (' ' :: '*' :: rest) = .ok .multiply rest := by
  have hj : junk0 ((' ' :: '*' :: rest).length + 1) (' ' :: '*' :: rest) =
      .ok () ('*' :: rest) := junk0_space (rest.length + 1) (by decide) (by decide)
  simp only [product_operator, symbol_tag_eval hj]
  rfl

/-- **C5**.  Product binds tighter than sum and both are left-associative:
for any decimal-digit atoms `a`, `b`, `c`, the declaration value `a - b * c`
parses to `Subtract(a, Multiply(b, c))` and `a - b - c` parses to
`Subtract(Subtract(a, b), c)` (inside the singleton comma/space list wrappers
`declaration_value` always builds), consuming the whole input. -/
theorem c5_precedence_associativity (fuel : Nat) (d1 d2 d3 : Char)
    (h1 : isAsciiDigit d1 = true) (h2 : isAsciiDigit d2 = true)
    (h3 : isAsciiDigit d3 = true) :
    declaration_value (fuel + 1)
        (d1 :: ' ' :: '-' :: ' ' :: d2 :: ' ' :: '*' :: ' ' :: [d3]) =
      .ok (.commaList [.spaceList [.binaryOperation .subtract
        (.numeric ⟨1, natOfDigits [d1], 0, 0, 0⟩ none)
        (.binaryOperation .multiply
          (.numeric ⟨1, natOfDigits [d2], 0, 0, 0⟩ none)
          (.numeric ⟨1, natOfDigits [d3], 0, 0, 0⟩ none))]]) [] ∧
    declaration_value (fuel + 1)
        (d1 :: ' ' :: '-' :: ' ' :: d2 :: ' ' :: '-' :: ' ' :: [d3]) =
      .ok (.commaList [.spaceList [.binaryOperation .subtract
        (.binaryOperation .subtract
          (.numeric ⟨1, natOfDigits [d1], 0, 0, 0⟩ none)
          (.numeric ⟨1, natOfDigits [d2], 0, 0, 0⟩ none))
        (.numeric ⟨1, natOfDigits [d3], 0, 0, 0⟩ none)]]) [] := by
  have hsnil : simple_expression (fuel + 1) [] = .fail := rfl
  have hpnil : product_operation (simple_expression (fuel + 1)) [] = .fail :=
    binary_operation_fail hsnil
  have hs0 : sum_operation (simple_expression (fuel + 1)) [] = .fail :=
    binary_operation_fail hpnil
  have hopPNil : op_pair (simple_expression (fuel + 1)) product_operator [] = .fail := rfl
  have hopSNil :
      op_pair (product_operation (simple_expression (fuel + 1))) sum_operator [] = .fail := by
    simp only [op_pair]
    rfl
  constructor
  · -- a - b * c
    have hS1 : simple_expression (fuel + 1)
        (d1 :: ' ' :: '-' :: ' ' :: d2 :: ' ' :: '*' :: ' ' :: [d3]) =
        .ok (.numeric ⟨1, natOfDigits [d1], 0, 0, 0⟩ none)
          (' ' :: '-' :: ' ' :: d2 :: ' ' :: '*' :: ' ' :: [d3]) :=
      simple_expression_digit h1 (Or.inr rfl)
    have hS2 : simple_expression (fuel + 1) (' ' :: d2 :: ' ' :: '*' :: ' ' :: [d3]) =
        .ok (.numeric ⟨1, natOfDigits [d2], 0, 0, 0⟩ none) (' ' :: '*' :: ' ' :: [d3]) :=
      simple_expression_space_digit h2 (Or.inr rfl)
    have hS3 : simple_expression (fuel + 1) (' ' :: [d3]) =
        .ok (.numeric ⟨1, natOfDigits [d3], 0, 0, 0⟩ none) [] :=
      simple_expression_space_digit h3 (Or.inl rfl)
    have hP1 : product_operation (simple_expression (fuel + 1))
        (d1 :: ' ' :: '-' :: ' ' :: d2 :: ' ' :: '*' :: ' ' :: [d3]) =
        .ok (.numeric ⟨1, natOfDigits [d1], 0, 0, 0⟩ none)
          (' ' :: '-' :: ' ' :: d2 :: ' ' :: '*' :: ' ' :: [d3]) := by
      simp only [product_operation, binary_operation, hS1]
      exact fold_many0_stop (by simp) (op_pair_fail_space_minus _ _)
    have hP2 : product_operation (simple_expression (fuel + 1))
        (' ' :: d2 :: ' ' :: '*' :: ' ' :: [d3]) =
        .ok (.binaryOperation .multiply
          (.numeric ⟨1, natOfDigits [d2], 0, 0, 0⟩ none)
          (.numeric ⟨1, natOfDigits [d3], 0, 0, 0⟩ none)) [] := by
      simp only [product_operation, binary_operation, hS2]
      have hop : op_pair (simple_expression (fuel + 1)) product_operator
          (' ' :: '*' :: ' ' :: [d3]) =
          .ok (.multiply, .numeric ⟨1, natOfDigits [d3], 0, 0, 0⟩ none) [] := by
        simp only [op_pair, product_operator_space_star, hS3]
      rw [fold_many0_step (by simp) hop (by simp)]
      exact fold_many0_stop (by simp) hopPNil
    have hSum : sum_operation (simple_expression (fuel + 1))
        (d1 :: ' ' :: '-' :: ' ' :: d2 :: ' ' :: '*' :: ' ' :: [d3]) =
        .ok (.binaryOperation .subtract
          (.numeric ⟨1, natOfDigits [d1], 0, 0, 0⟩ none)
          (.binaryOperation .multiply
            (.numeric ⟨1, natOfDigits [d2], 0, 0, 0⟩ none)
            (.numeric ⟨1, natOfDigits [d3], 0, 0, 0⟩ none))) [] := by
      simp only [sum_operation, binary_operation, hP1]
      have hop : op_pair (product_operation (simple_expression (fuel + 1))) sum_operator
          (' ' :: '-' :: ' ' :: d2 :: ' ' :: '*' :: ' ' :: [d3]) =
          .ok (.subtract, .binaryOperation .multiply
            (.numeric ⟨1, natOfDigits [d2], 0, 0, 0⟩ none)
            (.numeric ⟨1, natOfDigits [d3], 0, 0, 0⟩ none)) [] := by
        simp only [op_pair, sum_operator_space_minus, hP2]
      rw [fold_many0_step (by simp) hop (by simp)]
      exact fold_many0_stop (by simp) hopSNil
    have hMany : many1 (sum_operation (simple_expression (fuel + 1)))
        (d1 :: ' ' :: '-' :: ' ' :: d2 :: ' ' :: '*' :: ' ' :: [d3]) =
        .ok [.binaryOperation .subtract
          (.numeric ⟨1, natOfDigits [d1], 0, 0, 0⟩ none)
          (.binaryOperation .multiply
            (.numeric ⟨1, natOfDigits [d2], 0, 0, 0⟩ none)
            (.numeric ⟨1, natOfDigits [d3], 0, 0, 0⟩ none))] [] := by
      simp only [many1, hSum]
      exact many0_go_stop (by simp) hs0
    have hSL : space_list (sum_operation (simple_expression (fuel + 1)))
        (d1 :: ' ' :: '-' :: ' ' :: d2 :: ' ' :: '*' :: ' ' :: [d3]) =
        .ok (.spaceList [.binaryOperation .subtract
          (.numeric ⟨1, natOfDigits [d1], 0, 0, 0⟩ none)
          (.binaryOperation .multiply
            (.numeric ⟨1, natOfDigits [d2], 0, 0, 0⟩ none)
            (.numeric ⟨1, natOfDigits [d3], 0, 0, 0⟩ none))]) [] := by
      simp only [space_list, hMany]
    have hSep : separated_list1 (symbol ((",").toList))
        (space_list (sum_operation (simple_expression (fuel + 1))))
        (d1 :: ' ' :: '-' :: ' ' :: d2 :: ' ' :: '*' :: ' ' :: [d3]) =
        .ok [.spaceList [.binaryOperation .subtract
          (.numeric ⟨1, natOfDigits [d1], 0, 0, 0⟩ none)
          (.binaryOperation .multiply
            (.numeric ⟨1, natOfDigits [d2], 0, 0, 0⟩ none)
            (.numeric ⟨1, natOfDigits [d3], 0, 0, 0⟩ none))]] [] := by
      simp only [separated_list1, hSL]
      exact sep_list_go_stop (by simp) rfl
    simp only [declaration_value, comma_list, hSep]
  · -- a - b - c
    have hS1 : simple_expression (fuel + 1)
        (d1 :: ' ' :: '-' :: ' ' :: d2 :: ' ' :: '-' :: ' ' :: [d3]) =
        .ok (.numeric ⟨1, natOfDigits [d1], 0, 0, 0⟩ none)
          (' ' :: '-' :: ' ' :: d2 :: ' ' :: '-' :: ' ' :: [d3]) :=
      simple_expression_digit h1 (Or.inr rfl)
    have hS2 : simple_expression (fuel + 1) (' ' :: d2 :: ' ' :: '-' :: ' ' :: [d3]) =
        .ok (.numeric ⟨1, natOfDigits [d2], 0, 0, 0⟩ none) (' ' :: '-' :: ' ' :: [d3]) :=
      simple_expression_space_digit h2 (Or.inr rfl)
    have hS3 : simple_expression (fuel + 1) (' ' :: [d3]) =
        .ok (.numeric ⟨1, natOfDigits [d3], 0, 0, 0⟩ none) [] :=
      simple_expression_space_digit h3 (Or.inl rfl)
    have hP1 : product_operation (simple_expression (fuel + 1))
        (d1 :: ' ' :: '-' :: ' ' :: d2 :: ' ' :: '-' :: ' ' :: [d3]) =
        .ok (.numeric ⟨1, natOfDigits [d1], 0, 0, 0⟩ none)
          (' ' :: '-' :: ' ' :: d2 :: ' ' :: '-' :: ' ' :: [d3]) := by
      simp only [product_operation, binary_operation, hS1]
      exact fold_many0_stop (by simp) (op_pair_fail_space_minus _ _)
    have hP2 : product_operation (simple_expression (fuel + 1))
        (' ' :: d2 :: ' ' :: '-' :: ' ' :: [d3]) =
        .ok (.numeric ⟨1, natOfDigits [d2], 0, 0, 0⟩ none) (' ' :: '-' :: ' ' :: [d3]) := by
      simp only [product_operation, binary_operation, hS2]
      exact fold_many0_stop (by simp) (op_pair_fail_space_minus _ _)
    have hP3 : product_operation (simple_expression (fuel + 1)) (' ' :: [d3]) =
        .ok (.numeric ⟨1, natOfDigits [d3], 0, 0, 0⟩ none) [] := by
      simp only [product_operation, binary_operation, hS3]
      exact fold_many0_stop (by simp) hopPNil
    have hSum : sum_operation (simple_expression (fuel + 1))
        (d1 :: ' ' :: '-' :: ' ' :: d2 :: ' ' :: '-' :: ' ' :: [d3]) =
        .ok (.binaryOperation .subtract
          (.binaryOperation .subtract
            (.numeric ⟨1, natOfDigits [d1], 0, 0, 0⟩ none)
            (.numeric ⟨1, natOfDigits [d2], 0, 0, 0⟩ none))
          (.numeric ⟨1, natOfDigits [d3], 0, 0, 0⟩ none)) [] := by
      simp only [sum_operation, binary_operation, hP1]
      have hopA : op_pair (product_operation (simple_expression (fuel + 1))) sum_operator
          (' ' :: '-' :: ' ' :: d2 :: ' ' :: '-' :: ' ' :: [d3]) =
          .ok (.subtract, .numeric ⟨1, natOfDigits [d2], 0, 0, 0⟩ none)
            (' ' :: '-' :: ' ' :: [d3]) := by
        simp only [op_pair, sum_operator_space_minus, hP2]
      have hopB : op_pair (product_operation (simple_expression (fuel + 1))) sum_operator
          (' ' :: '-' :: ' ' :: [d3]) =
          .ok (.subtract, .numeric ⟨1, natOfDigits [d3], 0, 0, 0⟩ none) [] := by
        simp only [op_pair, sum_operator_space_minus, hP3]
      rw [fold_many0_step (by simp) hopA (by simp)]
      rw [fold_many0_step (by simp) hopB (by simp)]
      exact fold_many0_stop (by simp) hopSNil
    have hMany : many1 (sum_operation (simple_expression (fuel + 1)))
        (d1 :: ' ' :: '-' :: ' ' :: d2 :: ' ' :: '-' :: ' ' :: [d3]) =
        .ok [.binaryOperation .subtract
          (.binaryOperation .subtract
            (.numeric ⟨1, natOfDigits [d1], 0, 0, 0⟩ none)
            (.numeric ⟨1, natOfDigits [d2], 0, 0, 0⟩ none))
          (.numeric ⟨1, natOfDigits [d3], 0, 0, 0⟩ none)] [] := by
      simp only [many1, hSum]
      exact many0_go_stop (by simp) hs0
    have hSep : separated_list1 (symbol ((",").toList))
        (space_list (sum_operation (simple_expression (fuel + 1))))
        (d1 :: ' ' :: '-' :: ' ' :: d2 :: ' ' :: '-' :: ' ' :: [d3]) =
        .ok [.spaceList [.binaryOperation .subtract
          (.binaryOperation .subtract
            (.numeric ⟨1, natOfDigits [d1], 0, 0, 0⟩ none)
            (.numeric ⟨1, natOfDigits [d2], 0, 0, 0⟩ none))
          (.numeric ⟨1, natOfDigits [d3], 0, 0, 0⟩ none)]] [] := by
      simp only [separated_list1, space_list, hMany]
      exact sep_list_go_stop (by simp) rfl
    simp only [declaration_value, comma_list, hSep]

/-- Witness for C5 at the concrete digits `1`, `2`, `3`. -/
theorem c5_precedence_associativity_witness :
    declaration_value 9 (("1 - 2 * 3").toList) =
      .ok (.commaList [.spaceList [.binaryOperation .subtract
        (.numeric ⟨1, 1, 0, 0, 0⟩ none)
        (.binaryOperation .multiply (.numeric ⟨1, 2, 0, 0, 0⟩ none)
          (.numeric ⟨1, 3, 0, 0, 0⟩ none))]]) [] ∧
    declaration_value 9 (("1 - 2 - 3").toList) =
      .ok (.commaList [.spaceList [.binaryOperation .subtract
        (.binaryOperation .subtract (.numeric ⟨1, 1, 0, 0, 0⟩ none)
          (.numeric ⟨1, 2, 0, 0, 0⟩ none))
        (.numeric ⟨1, 3, 0, 0, 0⟩ none)]]) [] := by
  have h := c5_precedence_associativity 8 '1' '2' '3' (by decide) (by decide) (by decide)
  exact ⟨h.1, h.2⟩

/-- **C6** (code bug).  `comparison_operation`'s operator alternatives are
tried in the order `=`, `<`, `<=`, `>`, `>=`, so on `a <= b` the `<`
alternative wins, the operand parse then fails at `= b`, and the whole
operator-operand pair is backtracked: `boolean_expression` returns just
`Ident a` with ` <= b` unconsumed — not `LessThanOrEqualTo(a, b)`.  Likewise
for `>=`.  The single-character comparisons do work. -/
theorem c6_le_ge_operators_unreachable :
    boolean_expression 9 (("a <= b").toList) =
      .ok (.ident (("a").toList)) ((" <= b").toList) ∧
    boolean_expression 9 (("a >= b").toList) =
      .ok (.ident (("a").toList)) ((" >= b").toList) ∧
    boolean_expression 9 (("a < b").toList) =
      .ok (.binaryOperation .lessThan (.ident (("a").toList))
        (.ident (("b").toList))) [] ∧
    boolean_expression 9 (("a > b").toList) =
      .ok (.binaryOperation .greaterThan (.ident (("a").toList))
        (.ident (("b").toList))) [] :=
  ⟨rfl, rfl, rfl, rfl⟩

theorem to_semicolon_separated_go_literals (vs : List Expression) :
    ∀ acc, to_semicolon_separated_go (vs.map .literal) acc = .ok (acc ++ vs) := by
  induction vs with
  | nil =>
    intro acc
    simp [to_semicolon_separated_go]
  | cons v rest ih =>
    intro acc
    simp only [List.map_cons, to_semicolon_separated_go]
    rw [ih]
    simp

/-- **C7**.  The retroactive comma-to-semicolon fold: for any collected run
of a (possibly named) first argument followed by literal values,
`to_semicolon_separated` folds all values into the first slot as a
`CommaList`, keeping the first slot's name when present; and on the concrete
argument text `@colors: red, green, blue;` the argument loop produces exactly
one named slot `colors` holding the `CommaList` of the three idents, then
continues in semicolon mode up to the closing `)`. -/
theorem c7_comma_fold_to_semicolon :
    (∀ (nm : List Char) (v0 : Expression) (vs : List Expression),
      to_semicolon_separated (.variable' nm (some v0) :: vs.map .literal) =
        .ok (.variable' nm (some (.commaList (v0 :: vs)))) ∧
      to_semicolon_separated (.literal v0 :: vs.map .literal) =
        .ok (.literal (.commaList (v0 :: vs)))) ∧
    mixin_argumentsF 9 (("@colors: red, green, blue;)").toList) =
      .ok [.variable' (("colors").toList) (some (.commaList
        [.spaceList [.ident (("red").toList)],
         .spaceList [.ident (("green").toList)],
         .spaceList [.ident (("blue").toList)]]))] ((")").toList) := by
  constructor
  · intro nm v0 vs
    constructor
    · simp only [to_semicolon_separated, to_semicolon_separated_go_literals]
      simp
    · simp only [to_semicolon_separated, to_semicolon_separated_go_literals]
      simp
  · rfl

end RustLess

